import Mathlib

/-!
# caesar-cypher: a shallow embedding of `main.c`

The C program reads a file into a `char` buffer, shifts its characters by an
integer key and writes the buffer to another file.

Modelling conventions.

* A byte is a `Nat` below 256 (the object representation of a `char`); a buffer
  is the `List Nat` of the bytes of its allocation.
* `char` is signed, `int` is a 32-bit and `long` a 64-bit two's-complement integer:
  `text[i] + key` is computed in `int` (with wraparound) and stored back into a
  `char` (reduced modulo 256).
* `int` loop counters and sizes are natural numbers: buffers and files are taken
  to be shorter than `2^31` bytes.
* Reading a buffer past its allocation is undefined behaviour, rendered as `none`
  (`Run.undefined` for a run of the program).
* Files are byte sequences, read and written without translation; a command-line
  argument is a `String` whose characters stand for the `char`s of the C string.
* `exit` ends the run with its status; what the program printed, the files and the
  `fopen` calls made so far are kept in a `World`.
-/

namespace Caesar

/-! ## C library primitives used by the cipher -/

/-- Library function `strlen`: the index of the first zero byte of the buffer;
`none` when the allocation holds no zero byte (the scan leaves the allocation). -/
def strlen : List Nat → Option Nat
  | [] => none
  | b :: bs => if b = 0 then some 0 else (strlen bs).map (· + 1)

/-- Value of a `char` object with representation `b` once promoted to `int`
(plain `char` is signed). -/
def char_to_int (b : Nat) : Int :=
  if b % 256 < 128 then ((b % 256 : Nat) : Int) else ((b % 256 : Nat) : Int) - 256

/-- Result of an `int` operation whose mathematical value is `v`: 32-bit
two's-complement wraparound. -/
def wrap_int (v : Int) : Int :=
  (v + 2147483648) % 4294967296 - 2147483648

/-- Conversion of an `int` to `char`: the representation is the value modulo 256. -/
def int_to_char (v : Int) : Nat :=
  (v % 256).toNat

/-- The character stored by `text[i] = text[i] + key`. -/
def char_add (b : Nat) (key : Int) : Nat :=
  int_to_char (wrap_int (char_to_int b + key))

/-- The character stored by `text[i] = text[i] - key`. -/
def char_sub (b : Nat) (key : Int) : Nat :=
  int_to_char (wrap_int (char_to_int b - key))

/-- The first zero byte lies inside the allocation (used by the termination proofs of the
loops below). -/
theorem strlen_lt_length : ∀ (text : List Nat) (n : Nat), strlen text = some n → n < text.length
  | [], n, h => by simp [strlen] at h
  | b :: bs, n, h => by
    unfold strlen at h
    split at h
    · simp at h; subst h; simp
    · cases hs : strlen bs with
      | none => simp [hs] at h
      | some m =>
        simp [hs] at h
        subst h
        have := strlen_lt_length bs m hs
        simp; omega

/-! ## The cipher -/

/-- Loop of `encrypt_file`, entered with counter `i`:
`for (; i < strlen(text); i++) text[i] = text[i] + key;`.
The bound `strlen(text)` is evaluated again before every iteration. -/
def encrypt_loop (key : Int) (text : List Nat) (i : Nat) : Option (List Nat) :=
  match h : strlen text with
  | none => none
  | some n =>
    if i < n then
      encrypt_loop key (text.set i (char_add (text.getD i 0) key)) (i + 1)
    else
      some text
termination_by text.length - i
decreasing_by
  have := strlen_lt_length text n h
  simp [List.length_set]
  omega

/-- Source function `encrypt_file(text, key)`: the buffer after the call, `none` when the call
has undefined behaviour. -/
def encrypt_file (text : List Nat) (key : Int) : Option (List Nat) :=
  encrypt_loop key text 0

/-- Loop of `decrypt_file`, entered with counter `i`:
`for (; i < strlen(text); i++) text[i] = text[i] - key;`. -/
def decrypt_loop (key : Int) (text : List Nat) (i : Nat) : Option (List Nat) :=
  match h : strlen text with
  | none => none
  | some n =>
    if i < n then
      decrypt_loop key (text.set i (char_sub (text.getD i 0) key)) (i + 1)
    else
      some text
termination_by text.length - i
decreasing_by
  have := strlen_lt_length text n h
  simp [List.length_set]
  omega

/-- Source function `decrypt_file(text, key)`: the buffer after the call, `none` when the call
has undefined behaviour. -/
def decrypt_file (text : List Nat) (key : Int) : Option (List Nat) :=
  decrypt_loop key text 0

/-! ## Process state and the C library's input and output -/

/-- State of a run that the program can observe or change. -/
structure World where
  /-- Text written to standard output so far. -/
  stdout : String
  /-- Content of every file that can be opened for reading. -/
  files : String → Option (List Nat)
  /-- Whether `fopen(path, "w")` succeeds. -/
  writable : String → Bool
  /-- Library function `malloc`: `none` for a null pointer, else the block handed out
  with its indeterminate initial bytes. -/
  malloc : Nat → Option (List Nat)
  /-- Every `fopen` call so far, in order, as (path, mode). -/
  fopens : List (String × String)

/-- Outcome of running a piece of the program. -/
inductive Run (α : Type) where
  /-- The run has undefined behaviour. -/
  | undefined : Run α
  /-- The code called `exit(status)`. -/
  | exited (status : Nat) (w : World) : Run α
  /-- The code returned `a`. -/
  | returned (a : α) (w : World) : Run α

/-- Exit status of a run that ended with `exit`. -/
def Run.status {α : Type} : Run α → Option Nat
  | .exited s _ => some s
  | _ => none

/-- State of the world when the run ended. -/
def Run.world {α : Type} : Run α → Option World
  | .exited _ w => some w
  | .returned _ w => some w
  | .undefined => none

/-- Standard output when the run ended. -/
def Run.stdout {α : Type} (r : Run α) : Option String :=
  r.world.map (·.stdout)

/-- The `fopen` calls made until the run ended. -/
def Run.fopens {α : Type} (r : Run α) : Option (List (String × String)) :=
  r.world.map (·.fopens)

/-- Content of the file `path` when the run ended (`some none`: no such file). -/
def Run.file {α : Type} (r : Run α) (path : String) : Option (Option (List Nat)) :=
  r.world.map (·.files path)

def EXIT_SUCCESS : Nat := 0

def EXIT_FAILURE : Nat := 1

def MAX_FILENAME_LENGTH : Nat := 20

/-- Library function `printf`, once its arguments are formatted into `s`. -/
def printf (w : World) (s : String) : World :=
  { w with stdout := w.stdout ++ s }

/-- Library function `isspace` in the C locale. -/
def isspace (c : Char) : Bool :=
  c.toNat = 32 || (9 ≤ c.toNat && c.toNat ≤ 13)

/-- Library function `isdigit`. -/
def isdigit (c : Char) : Bool :=
  48 ≤ c.toNat && c.toNat ≤ 57

/-- Library call `sscanf(s, "%<width>s", buf)`: white space is skipped, then at most `width`
characters are stored up to the next white space. `none` stands for a return value other
than 1 (the input ends before any character is stored). -/
def sscanf_s (width : Nat) (s : String) : Option String :=
  match s.toList.dropWhile isspace with
  | [] => none
  | c :: cs => some (String.mk ((c :: cs.takeWhile (fun d => !isspace d)).take width))

/-- Library function `strtol` on a number of mathematical value `v`: `long` has 64 bits, and a
value out of its range is replaced by `LONG_MIN` or `LONG_MAX`. -/
def clamp_long (v : Int) : Int :=
  if v < -9223372036854775808 then -9223372036854775808
  else if 9223372036854775807 < v then 9223372036854775807
  else v

/-- Library call `sscanf(s, "%d", &key)`: white space is skipped, then an optional sign and a
non-empty run of decimal digits are read; what follows is ignored. `none` stands for a return
value other than 1. The C library (glibc) converts the digits with `strtol` and stores the
`long` in the `int`, keeping its low 32 bits. -/
def sscanf_d (s : String) : Option Int :=
  match s.toList.dropWhile isspace with
  | [] => none
  | c :: cs =>
    let body := if c = '-' ∨ c = '+' then cs else c :: cs
    let digits := body.takeWhile isdigit
    if digits = [] then none
    else
      let v : Nat := digits.foldl (fun acc d => 10 * acc + (d.toNat - 48)) 0
      some (wrap_int (clamp_long (if c = '-' then -(v : Int) else (v : Int))))

/-- Source function `same_string`: `strcmp(str1, str2) == 0`. -/
def same_string (str1 str2 : String) : Bool :=
  str1 == str2

/-- Source function `print_error_header`. -/
def print_error_header (w : World) : World :=
  printf w "caesar-cipher: error: "

/-- Source function `print_arg_error`. -/
def print_arg_error (w : World) (arg : String) : World :=
  printf (print_error_header w) ("unrecognized arguments " ++ arg ++ "\n")

/-- Source function `print_version`. -/
def print_version (w : World) : World :=
  printf w "caesar-cipher version 1.0\n"

/-- Source function `print_help`. -/
def print_help (w : World) : World :=
  printf w ("Usage: ./main [-e | -d] key input_file output_file\n" ++
    "              -d, --decrypt     decrypt input_file with the given key\n" ++
    "              -e, --encrypt     encrypt input_file with the given key\n" ++
    "              -h, --help        display this help and exit\n" ++
    "              -v, --version     display version and exit\n" ++
    "            ")

/-- Source function `import_file`: the file is opened for reading, its bytes are counted, a block
of one byte more is allocated and the file's bytes are copied to its start. The last byte of
the block is never written. -/
def import_file (w : World) (filename : String) : Run (List Nat) :=
  let w := { w with fopens := w.fopens ++ [(filename, "r")] }
  match w.files filename with
  | none =>
    .exited EXIT_FAILURE
      (printf (print_error_header w) ("the file " ++ filename ++ " does not exist\n"))
  | some content =>
    let nb_char_in_file := content.length
    match w.malloc (nb_char_in_file + 1) with
    | none => .exited EXIT_FAILURE (printf (print_error_header w) "memory allocation failure")
    | some text => .returned (content ++ text.drop nb_char_in_file) w

/-- Source function `export_file`: the file is opened for writing (created or emptied) and
`strlen(text)` bytes of the buffer are written to it. -/
def export_file (w : World) (filename : String) (text : List Nat) : Run Unit :=
  let w := { w with fopens := w.fopens ++ [(filename, "w")] }
  if w.writable filename then
    match strlen text with
    | none => .undefined
    | some n =>
      .returned () { w with files := fun p => if p = filename then some (text.take n) else w.files p }
  else
    .exited EXIT_FAILURE
      (printf (print_error_header w) ("impossible to write in file " ++ filename ++ "\n"))

/-- Source function `main`, with `argc = argv.length`. -/
def main (argv : List String) (w : World) : Run Unit :=
  match argv.length with
  | 1 | 3 | 4 =>
    .exited EXIT_FAILURE (printf (print_error_header w) "missing arguments")
  | 2 =>
    let arg1 := argv.getD 1 ""
    if same_string arg1 "--version" || same_string arg1 "-v" then
      .exited EXIT_SUCCESS (print_version w)
    else if same_string arg1 "--help" || same_string arg1 "-h" then
      .exited EXIT_SUCCESS (print_help w)
    else
      .exited EXIT_FAILURE (print_arg_error w arg1)
  | 5 =>
    let arg1 := argv.getD 1 ""
    match sscanf_d (argv.getD 2 "") with
    | none => .exited EXIT_FAILURE (printf (print_error_header w) "invalid key")
    | some key =>
    match sscanf_s 19 (argv.getD 3 "") with
    | none =>
      .exited EXIT_FAILURE
        (printf (print_error_header w) ("filename " ++ argv.getD 3 "" ++ " invalid"))
    | some input_filename =>
    match sscanf_s 19 (argv.getD 4 "") with
    | none =>
      .exited EXIT_FAILURE
        (printf (print_error_header w) ("filename " ++ argv.getD 4 "" ++ " invalid"))
    | some output_filename =>
    if !(same_string arg1 "--encrypt" || same_string arg1 "--decrypt" ||
          same_string arg1 "-e" || same_string arg1 "-d") then
      .exited EXIT_FAILURE (print_arg_error w arg1)
    else
      match import_file w input_filename with
      | .undefined => .undefined
      | .exited status w => .exited status w
      | .returned text w =>
        if same_string arg1 "--encrypt" || same_string arg1 "-e" then
          match encrypt_file text key with
          | none => .undefined
          | some text =>
            match export_file w output_filename text with
            | .undefined => .undefined
            | .exited status w => .exited status w
            | .returned _ w => .exited EXIT_SUCCESS (printf w "file successfully encrypted\n")
        else if same_string arg1 "--decrypt" || same_string arg1 "-d" then
          match decrypt_file text key with
          | none => .undefined
          | some text =>
            match export_file w output_filename text with
            | .undefined => .undefined
            | .exited status w => .exited status w
            | .returned _ w => .exited EXIT_SUCCESS (printf w "file successfully decrypted\n")
        else
          .exited EXIT_SUCCESS w
  | _ =>
    .exited EXIT_FAILURE (printf (print_error_header w) "too much arguments")

/-- The string a buffer holds: its bytes before the first zero byte, which are the bytes that
`fwrite(text, sizeof(char), strlen(text), fp)` writes. -/
def c_str (text : List Nat) : Option (List Nat) :=
  (strlen text).map (fun n => text.take n)

/-- Value returned by a run that returned. -/
def Run.value {α : Type} : Run α → Option α
  | .returned a _ => some a
  | _ => none

/-! ## Worlds for examples -/

/-- A world whose only file, `in`, holds the two bytes of "Hi"; fresh memory is zero-filled
and every path can be written. -/
def world_hi : World where
  stdout := ""
  files := fun p => if p = "in" then some [72, 105] else none
  writable := fun _ => true
  malloc := fun n => some (List.replicate n 0)
  fopens := []

/-- A world whose only file, `in`, holds `0x41 0x00 0x42`. -/
def world_nul : World where
  stdout := ""
  files := fun p => if p = "in" then some [65, 0, 66] else none
  writable := fun _ => true
  malloc := fun n => some (List.replicate n 0)
  fopens := []

/-- A world like `world_hi` whose fresh memory is filled with the byte 1. -/
def world_dirty : World where
  stdout := ""
  files := fun p => if p = "in" then some [72, 105] else none
  writable := fun _ => true
  malloc := fun n => some (List.replicate n 1)
  fopens := []

/-- The number written by a run of decimal digits. -/
def decimal_value (ds : List Char) : Nat :=
  ds.foldl (fun acc d => 10 * acc + (d.toNat - 48)) 0

/-- Whether a text starts, after optional white space and one optional sign, with a decimal
digit. -/
def starts_with_number (l : List Char) : Bool :=
  match l.dropWhile isspace with
  | [] => false
  | c :: cs =>
    if c = '-' ∨ c = '+' then
      match cs with
      | [] => false
      | d :: _ => isdigit d
    else isdigit c

/-! ## The loops with a record of their stores -/

/-- Loop of `encrypt_file` entered with counter `i`, returning with the final buffer the list
of the indices `i` at which `text[i] = text[i] + key` was executed, in order. -/
def encrypt_trace (key : Int) (text : List Nat) (i : Nat) : Option (List Nat × List Nat) :=
  match h : strlen text with
  | none => none
  | some n =>
    if i < n then
      (encrypt_trace key (text.set i (char_add (text.getD i 0) key)) (i + 1)).map
        (fun r => (r.1, i :: r.2))
    else
      some (text, [])
termination_by text.length - i
decreasing_by
  have := strlen_lt_length text n h
  simp [List.length_set]
  omega

/-- Loop of `decrypt_file` entered with counter `i`, returning with the final buffer the list
of the indices `i` at which `text[i] = text[i] - key` was executed, in order. -/
def decrypt_trace (key : Int) (text : List Nat) (i : Nat) : Option (List Nat × List Nat) :=
  match h : strlen text with
  | none => none
  | some n =>
    if i < n then
      (decrypt_trace key (text.set i (char_sub (text.getD i 0) key)) (i + 1)).map
        (fun r => (r.1, i :: r.2))
    else
      some (text, [])
termination_by text.length - i
decreasing_by
  have := strlen_lt_length text n h
  simp [List.length_set]
  omega

/-! ## A closed form of the loops, used in the proofs -/

/-- Structural description of a shift loop run from the start of a buffer: bytes are replaced by
their image under `f` up to and including the first one whose image is zero; a zero byte of the
buffer ends the run unchanged. -/
def shift_run (f : Nat → Nat) : List Nat → List Nat
  | [] => []
  | b :: bs =>
    if b = 0 then b :: bs
    else if f b = 0 then 0 :: bs
    else f b :: shift_run f bs

/-! ## Unfolding the loops -/

theorem strlen_append (pre rest : List Nat) (hpre : ∀ b ∈ pre, b ≠ 0) :
    strlen (pre ++ rest) = (strlen rest).map (· + pre.length) := by
  induction pre with
  | nil => cases h : strlen rest <;> simp [h]
  | cons a as ih =>
    have ha : a ≠ 0 := hpre a (by simp)
    have ih2 := ih (fun b hb => hpre b (by simp [hb]))
    show strlen (a :: (as ++ rest)) = _
    rw [strlen, if_neg ha, ih2]
    cases h : strlen rest <;> simp [Nat.add_assoc]

theorem encrypt_loop_eq (key : Int) (text : List Nat) (i : Nat) :
    encrypt_loop key text i =
      match strlen text with
      | none => none
      | some n =>
        if i < n then encrypt_loop key (text.set i (char_add (text.getD i 0) key)) (i + 1)
        else some text := by
  rw [encrypt_loop]
  split <;> simp_all

theorem decrypt_loop_eq (key : Int) (text : List Nat) (i : Nat) :
    decrypt_loop key text i =
      match strlen text with
      | none => none
      | some n =>
        if i < n then decrypt_loop key (text.set i (char_sub (text.getD i 0) key)) (i + 1)
        else some text := by
  rw [decrypt_loop]
  split <;> simp_all

/-- Any function obeying the loop equation computes `shift_run` on the unread part. -/
theorem loop_eq_shift_run (f : Nat → Nat) (loop : List Nat → Nat → Option (List Nat))
    (hloop : ∀ text i, loop text i =
      match strlen text with
      | none => none
      | some n => if i < n then loop (text.set i (f (text.getD i 0))) (i + 1) else some text) :
    ∀ (rest pre : List Nat), (∀ b ∈ pre, b ≠ 0) → strlen rest ≠ none →
      loop (pre ++ rest) pre.length = some (pre ++ shift_run f rest) := by
  intro rest
  induction rest with
  | nil => intro pre _ h; simp [strlen] at h
  | cons b bs ih =>
    intro pre hpre hrest
    by_cases hb : b = 0
    · subst hb
      rw [hloop, strlen_append pre _ hpre]
      simp [strlen, shift_run]
    · have hbs : strlen bs ≠ none := by
        intro h; apply hrest; simp [strlen, hb, h]
      obtain ⟨m, hm⟩ := Option.ne_none_iff_exists'.mp hbs
      have hget : (pre ++ b :: bs).getD pre.length 0 = b := by
        rw [List.getD_eq_getElem?_getD, List.getElem?_append_right (le_refl _)]
        simp
      have hset : ∀ c, (pre ++ b :: bs).set pre.length c = pre ++ c :: bs := by
        intro c; simp [List.set_append]
      rw [hloop, strlen_append pre _ hpre]
      simp only [strlen, hb, if_false, hm, Option.map_some', hget, hset]
      rw [if_pos (by omega)]
      by_cases hf : f b = 0
      · rw [hf, hloop, strlen_append pre _ hpre]
        simp [strlen, shift_run, hb, hf]
      · have hpre2 : ∀ c ∈ pre ++ [f b], c ≠ 0 := by
          intro c hc
          rcases List.mem_append.mp hc with h | h
          · exact hpre c h
          · simp at h; subst h; exact hf
        have := ih (pre ++ [f b]) hpre2 hbs
        simp only [List.append_assoc, List.singleton_append, List.length_append,
          List.length_singleton] at this
        rw [this]
        simp [shift_run, hb, hf]

theorem encrypt_file_eq (text : List Nat) (key : Int) (h : strlen text ≠ none) :
    encrypt_file text key = some (shift_run (fun b => char_add b key) text) := by
  have := loop_eq_shift_run (fun b => char_add b key) (encrypt_loop key)
    (encrypt_loop_eq key) text [] (by simp) h
  simpa [encrypt_file] using this

theorem decrypt_file_eq (text : List Nat) (key : Int) (h : strlen text ≠ none) :
    decrypt_file text key = some (shift_run (fun b => char_sub b key) text) := by
  have := loop_eq_shift_run (fun b => char_sub b key) (decrypt_loop key)
    (decrypt_loop_eq key) text [] (by simp) h
  simpa [decrypt_file] using this

/-! ## Character arithmetic -/

theorem char_add_eq (b : Nat) (key : Int) : char_add b key = (((b : Int) + key) % 256).toNat := by
  unfold char_add int_to_char wrap_int char_to_int
  split <;> omega

theorem char_sub_eq (b : Nat) (key : Int) : char_sub b key = (((b : Int) - key) % 256).toNat := by
  unfold char_sub int_to_char wrap_int char_to_int
  split <;> omega

theorem char_add_lt (b : Nat) (key : Int) : char_add b key < 256 := by
  rw [char_add_eq]; omega

theorem char_sub_lt (b : Nat) (key : Int) : char_sub b key < 256 := by
  rw [char_sub_eq]; omega

theorem char_sub_add (b : Nat) (key : Int) (hb : b < 256) : char_sub (char_add b key) key = b := by
  rw [char_sub_eq, char_add_eq]; omega

theorem char_add_sub (b : Nat) (key : Int) (hb : b < 256) : char_add (char_sub b key) key = b := by
  rw [char_sub_eq, char_add_eq]; omega

theorem char_add_eq_zero (b : Nat) (key : Int) :
    char_add b key = 0 ↔ ((b : Int) + key) % 256 = 0 := by
  rw [char_add_eq]; omega

theorem char_sub_eq_zero (b : Nat) (key : Int) :
    char_sub b key = 0 ↔ ((b : Int) - key) % 256 = 0 := by
  rw [char_sub_eq]; omega

/-! ## Buffers whose shifted bytes are all non-zero -/

theorem strlen_take_ne_zero : ∀ (text : List Nat) (n : Nat), strlen text = some n →
    ∀ b ∈ text.take n, b ≠ 0
  | [], n, h => by simp [strlen] at h
  | a :: as, n, h => by
    unfold strlen at h
    split at h
    · simp at h; subst h; simp
    · rename_i ha
      cases hs : strlen as with
      | none => simp [hs] at h
      | some m =>
        simp [hs] at h
        subst h
        intro b hb
        simp only [List.take_succ_cons, List.mem_cons] at hb
        rcases hb with hb | hb
        · subst hb; exact ha
        · exact strlen_take_ne_zero as m hs b hb

theorem strlen_drop : ∀ (text : List Nat) (n : Nat), strlen text = some n →
    ∃ rest, text.drop n = 0 :: rest
  | [], n, h => by simp [strlen] at h
  | a :: as, n, h => by
    unfold strlen at h
    split at h
    · rename_i ha
      simp at h; subst h; subst ha; exact ⟨as, rfl⟩
    · cases hs : strlen as with
      | none => simp [hs] at h
      | some m =>
        simp [hs] at h
        subst h
        simpa using strlen_drop as m hs

/-- The first zero byte of `pre ++ 0 :: rest` is at `pre.length` when `pre` holds none. -/
theorem strlen_append_zero (pre rest : List Nat) (hpre : ∀ b ∈ pre, b ≠ 0) :
    strlen (pre ++ 0 :: rest) = some pre.length := by
  rw [strlen_append pre _ hpre]; simp [strlen]

theorem shift_run_append_zero (f : Nat → Nat) (pre rest : List Nat)
    (hpre : ∀ b ∈ pre, b ≠ 0) (hf : ∀ b ∈ pre, f b ≠ 0) :
    shift_run f (pre ++ 0 :: rest) = pre.map f ++ 0 :: rest := by
  induction pre with
  | nil => simp [shift_run]
  | cons a as ih =>
    have h1 : a ≠ 0 := hpre a (by simp)
    have h2 : f a ≠ 0 := hf a (by simp)
    have := ih (fun b hb => hpre b (by simp [hb])) (fun b hb => hf b (by simp [hb]))
    simp [shift_run, h1, h2, this]

/-- A shift loop none of whose stored bytes is zero maps `f` over the bytes before the
terminator and leaves the rest of the buffer as it was. -/
theorem shift_run_of_ne_zero (f : Nat → Nat) (text : List Nat) (n : Nat)
    (hn : strlen text = some n) (hf : ∀ b ∈ text.take n, f b ≠ 0) :
    shift_run f text = (text.take n).map f ++ text.drop n := by
  obtain ⟨rest, hrest⟩ := strlen_drop text n hn
  have hsplit : text = text.take n ++ 0 :: rest := by
    rw [← hrest, List.take_append_drop]
  have := shift_run_append_zero f (text.take n) rest (strlen_take_ne_zero text n hn) hf
  rw [← hsplit] at this
  rw [this, hrest]

theorem strlen_map_take (f : Nat → Nat) (text : List Nat) (n : Nat)
    (hn : strlen text = some n) (hf : ∀ b ∈ text.take n, f b ≠ 0) :
    strlen ((text.take n).map f ++ text.drop n) = some n := by
  obtain ⟨rest, hrest⟩ := strlen_drop text n hn
  have hlen : ((text.take n).map f).length = n := by
    have := strlen_lt_length text n hn
    simp; omega
  rw [hrest]
  have := strlen_append_zero ((text.take n).map f) rest (by
    intro b hb
    obtain ⟨a, ha, rfl⟩ := List.mem_map.mp hb
    exact hf a ha)
  rw [this, hlen]

theorem strlen_shift_run_of_ne_zero (f : Nat → Nat) (text : List Nat) (n : Nat)
    (hn : strlen text = some n) (hf : ∀ b ∈ text.take n, f b ≠ 0) :
    strlen (shift_run f text) = some n := by
  rw [shift_run_of_ne_zero f text n hn hf]
  exact strlen_map_take f text n hn hf

theorem take_shift_run_of_ne_zero (f : Nat → Nat) (text : List Nat) (n : Nat)
    (hn : strlen text = some n) (hf : ∀ b ∈ text.take n, f b ≠ 0) :
    (shift_run f text).take n = (text.take n).map f := by
  rw [shift_run_of_ne_zero f text n hn hf]
  have hlen : ((text.take n).map f).length = n := by
    have := strlen_lt_length text n hn
    simp; omega
  rw [List.take_append_of_le_length (by omega), List.take_of_length_le (by omega)]

theorem drop_shift_run_of_ne_zero (f : Nat → Nat) (text : List Nat) (n : Nat)
    (hn : strlen text = some n) (hf : ∀ b ∈ text.take n, f b ≠ 0) :
    (shift_run f text).drop n = text.drop n := by
  rw [shift_run_of_ne_zero f text n hn hf]
  have hlen : ((text.take n).map f).length = n := by
    have := strlen_lt_length text n hn
    simp; omega
  rw [List.drop_append_of_le_length (by omega), List.drop_of_length_le (by omega)]
  simp

/-- Shifting by `g` after `f` restores a buffer when `g` undoes `f` on its bytes and `f` stores
no zero byte. -/
theorem shift_run_inverse (f g : Nat → Nat) (text : List Nat) (n : Nat)
    (hn : strlen text = some n) (hf : ∀ b ∈ text.take n, f b ≠ 0)
    (hgf : ∀ b ∈ text.take n, g (f b) = b) :
    shift_run g (shift_run f text) = text := by
  have hn2 := strlen_shift_run_of_ne_zero f text n hn hf
  have htake := take_shift_run_of_ne_zero f text n hn hf
  have hdrop := drop_shift_run_of_ne_zero f text n hn hf
  have hg : ∀ b ∈ (shift_run f text).take n, g b ≠ 0 := by
    intro b hb
    rw [htake] at hb
    obtain ⟨a, ha, rfl⟩ := List.mem_map.mp hb
    rw [hgf a ha]
    exact strlen_take_ne_zero text n hn a ha
  rw [shift_run_of_ne_zero g _ n hn2 hg, htake, hdrop, List.map_map]
  have : (text.take n).map (g ∘ f) = text.take n := by
    conv_rhs => rw [← List.map_id (text.take n)]
    apply List.map_congr_left
    intro a ha
    simp [hgf a ha]
  rw [this, List.take_append_drop]

theorem decrypt_encrypt_file (text : List Nat) (key : Int) (n : Nat)
    (hn : strlen text = some n) (hbytes : ∀ b ∈ text, b < 256)
    (hnz : ∀ b ∈ text.take n, ((b : Int) + key) % 256 ≠ 0) :
    (encrypt_file text key).bind (fun t => decrypt_file t key) = some text := by
  have hf : ∀ b ∈ text.take n, char_add b key ≠ 0 := fun b hb h =>
    hnz b hb ((char_add_eq_zero b key).mp h)
  have hne : strlen text ≠ none := by simp [hn]
  rw [encrypt_file_eq text key hne, Option.some_bind,
    decrypt_file_eq _ key (by
      rw [strlen_shift_run_of_ne_zero _ text n hn hf]; simp)]
  rw [shift_run_inverse _ _ text n hn hf (fun b hb =>
    char_sub_add b key (hbytes b (List.mem_of_mem_take hb)))]

theorem encrypt_decrypt_file (text : List Nat) (key : Int) (n : Nat)
    (hn : strlen text = some n) (hbytes : ∀ b ∈ text, b < 256)
    (hnz : ∀ b ∈ text.take n, ((b : Int) - key) % 256 ≠ 0) :
    (decrypt_file text key).bind (fun t => encrypt_file t key) = some text := by
  have hf : ∀ b ∈ text.take n, char_sub b key ≠ 0 := fun b hb h =>
    hnz b hb ((char_sub_eq_zero b key).mp h)
  have hne : strlen text ≠ none := by simp [hn]
  rw [decrypt_file_eq text key hne, Option.some_bind,
    encrypt_file_eq _ key (by
      rw [strlen_shift_run_of_ne_zero _ text n hn hf]; simp)]
  rw [shift_run_inverse _ _ text n hn hf (fun b hb =>
    char_add_sub b key (hbytes b (List.mem_of_mem_take hb)))]

theorem encrypt_file_of_ne_zero (text : List Nat) (key : Int) (n : Nat)
    (hn : strlen text = some n) (hnz : ∀ b ∈ text.take n, ((b : Int) + key) % 256 ≠ 0) :
    encrypt_file text key =
      some ((text.take n).map (fun (b : Nat) => (((b : Int) + key) % 256).toNat) ++ text.drop n) := by
  have hf : ∀ b ∈ text.take n, char_add b key ≠ 0 := fun b hb h =>
    hnz b hb ((char_add_eq_zero b key).mp h)
  rw [encrypt_file_eq text key (by simp [hn]), shift_run_of_ne_zero _ text n hn hf]
  simp only [char_add_eq]

theorem decrypt_file_of_ne_zero (text : List Nat) (key : Int) (n : Nat)
    (hn : strlen text = some n) (hnz : ∀ b ∈ text.take n, ((b : Int) - key) % 256 ≠ 0) :
    decrypt_file text key =
      some ((text.take n).map (fun (b : Nat) => (((b : Int) - key) % 256).toNat) ++ text.drop n) := by
  have hf : ∀ b ∈ text.take n, char_sub b key ≠ 0 := fun b hb h =>
    hnz b hb ((char_sub_eq_zero b key).mp h)
  rw [decrypt_file_eq text key (by simp [hn]), shift_run_of_ne_zero _ text n hn hf]
  simp only [char_sub_eq]

/-! ## The cipher: round trip, pointwise shift, length, bijection -/

/-- C1, as stated, fails: the buffer holding `0xFF 0x05` encrypted with key 1 stops at the zero
byte it stores first, and decrypting that result with key 1 changes nothing, so the original
content does not come back. -/
theorem round_trip_counterexample :
    encrypt_file [255, 5, 0] 1 = some [0, 5, 0] ∧
    decrypt_file [0, 5, 0] 1 = some [0, 5, 0] ∧
    (encrypt_file [255, 5, 0] 1).bind (fun t => decrypt_file t 1) ≠ some [255, 5, 0] := by
  have h1 : encrypt_file [255, 5, 0] 1 = some [0, 5, 0] := by
    rw [encrypt_file_eq _ _ (by decide)]; decide
  have h2 : decrypt_file [0, 5, 0] 1 = some [0, 5, 0] := by
    rw [decrypt_file_eq _ _ (by decide)]; decide
  refine ⟨h1, h2, ?_⟩
  rw [h1, Option.some_bind, h2]
  decide

/-- C1 (amended): for every NUL-terminated buffer of bytes and every integer key such that no
byte before the terminator is shifted to zero by the key, `decrypt_file` with that key run on
the result of `encrypt_file` gives the buffer back. -/
theorem round_trip_of_no_zero (text : List Nat) (key : Int) (n : Nat)
    (hn : strlen text = some n) (hbytes : ∀ b ∈ text, b < 256)
    (hnz : ∀ b ∈ text.take n, ((b : Int) + key) % 256 ≠ 0) :
    (encrypt_file text key).bind (fun t => decrypt_file t key) = some text :=
  decrypt_encrypt_file text key n hn hbytes hnz

/-- The bytes of "Hi" round-trip under key 3. -/
theorem round_trip_of_no_zero_witness :
    (encrypt_file [72, 105, 0] 3).bind (fun t => decrypt_file t 3) = some [72, 105, 0] :=
  round_trip_of_no_zero [72, 105, 0] 3 2 (by decide) (by decide) (by decide)

/-- C2, as stated, fails: with key 10 the byte `0xF6` becomes zero and ends the loop, so the
byte `0x41` after it is left as it was instead of becoming `0x4B`. -/
theorem pointwise_shift_counterexample :
    encrypt_file [246, 65, 0] 10 = some [0, 65, 0] ∧
    encrypt_file [246, 65, 0] 10 ≠
      some ([246, 65].map (fun (b : Nat) => (((b : Int) + 10) % 256).toNat) ++ [0]) := by
  have h1 : encrypt_file [246, 65, 0] 10 = some [0, 65, 0] := by
    rw [encrypt_file_eq _ _ (by decide)]; decide
  refine ⟨h1, ?_⟩
  rw [h1]
  decide

/-- C2 (amended): for every NUL-terminated buffer and every integer key, when no byte before
the terminator is shifted to zero, `encrypt_file` replaces each byte `b` before the terminator
by `(b + key) mod 256` and leaves the terminator and what follows it unchanged; likewise
`decrypt_file` with `(b - key) mod 256`. -/
theorem pointwise_shift_of_no_zero (text : List Nat) (key : Int) (n : Nat)
    (hn : strlen text = some n) :
    ((∀ b ∈ text.take n, ((b : Int) + key) % 256 ≠ 0) →
      encrypt_file text key =
        some ((text.take n).map (fun (b : Nat) => (((b : Int) + key) % 256).toNat)
          ++ text.drop n)) ∧
    ((∀ b ∈ text.take n, ((b : Int) - key) % 256 ≠ 0) →
      decrypt_file text key =
        some ((text.take n).map (fun (b : Nat) => (((b : Int) - key) % 256).toNat)
          ++ text.drop n)) :=
  ⟨encrypt_file_of_ne_zero text key n hn, decrypt_file_of_ne_zero text key n hn⟩

/-- Encrypting "Hi" with key 3 gives "Kl"; decrypting "Kl" with key 3 gives "Hi". -/
theorem pointwise_shift_of_no_zero_witness :
    encrypt_file [72, 105, 0] 3 = some [75, 108, 0] ∧
    decrypt_file [75, 108, 0] 3 = some [72, 105, 0] :=
  ⟨(pointwise_shift_of_no_zero [72, 105, 0] 3 2 (by decide)).1 (by decide),
   (pointwise_shift_of_no_zero [75, 108, 0] 3 2 (by decide)).2 (by decide)⟩

/-- C3, as stated, fails: a three-byte content whose second byte is `0xFF` has one byte left
after encryption with key 1. -/
theorem length_counterexample :
    strlen [65, 255, 66, 0] = some 3 ∧
    encrypt_file [65, 255, 66, 0] 1 = some [66, 0, 66, 0] ∧
    (encrypt_file [65, 255, 66, 0] 1).bind strlen = some 1 := by
  have h1 : encrypt_file [65, 255, 66, 0] 1 = some [66, 0, 66, 0] := by
    rw [encrypt_file_eq _ _ (by decide)]; decide
  refine ⟨by decide, h1, ?_⟩
  rw [h1]
  decide

/-- C3 (amended): for every NUL-terminated buffer and every integer key, when no byte before
the terminator is shifted to zero, the content left by `encrypt_file` (the bytes before the
first zero byte, which `export_file` writes) has as many bytes as the content before the call,
and the allocation keeps its size; likewise for `decrypt_file`. -/
theorem length_preserved_of_no_zero (text : List Nat) (key : Int) (n : Nat)
    (hn : strlen text = some n) :
    ((∀ b ∈ text.take n, ((b : Int) + key) % 256 ≠ 0) →
      ∃ t, encrypt_file text key = some t ∧ strlen t = some n ∧ t.length = text.length) ∧
    ((∀ b ∈ text.take n, ((b : Int) - key) % 256 ≠ 0) →
      ∃ t, decrypt_file text key = some t ∧ strlen t = some n ∧ t.length = text.length) := by
  have hlen : ∀ f : Nat → Nat, ((text.take n).map f ++ text.drop n).length = text.length := by
    intro f
    have := strlen_lt_length text n hn
    simp; omega
  constructor
  · intro hnz
    have hf : ∀ b ∈ text.take n, char_add b key ≠ 0 := fun b hb h =>
      hnz b hb ((char_add_eq_zero b key).mp h)
    refine ⟨_, encrypt_file_eq text key (by simp [hn]),
      strlen_shift_run_of_ne_zero _ text n hn hf, ?_⟩
    rw [shift_run_of_ne_zero _ text n hn hf]
    exact hlen _
  · intro hnz
    have hf : ∀ b ∈ text.take n, char_sub b key ≠ 0 := fun b hb h =>
      hnz b hb ((char_sub_eq_zero b key).mp h)
    refine ⟨_, decrypt_file_eq text key (by simp [hn]),
      strlen_shift_run_of_ne_zero _ text n hn hf, ?_⟩
    rw [shift_run_of_ne_zero _ text n hn hf]
    exact hlen _

/-- The two bytes of "Hi" stay two bytes under key 3, in either direction. -/
theorem length_preserved_of_no_zero_witness :
    (∃ t, encrypt_file [72, 105, 0] 3 = some t ∧ strlen t = some 2 ∧ t.length = 3) ∧
    (∃ t, decrypt_file [72, 105, 0] 3 = some t ∧ strlen t = some 2 ∧ t.length = 3) :=
  ⟨(length_preserved_of_no_zero [72, 105, 0] 3 2 (by decide)).1 (by decide),
   (length_preserved_of_no_zero [72, 105, 0] 3 2 (by decide)).2 (by decide)⟩

theorem c_str_append_zero (x rest : List Nat) (hx : ∀ b ∈ x, b ≠ 0) :
    c_str (x ++ 0 :: rest) = some x := by
  simp [c_str, strlen_append_zero x rest hx]

theorem encrypt_file_append_zero (x rest : List Nat) (key : Int) (hx : ∀ b ∈ x, b ≠ 0)
    (hnz : ∀ b ∈ x, ((b : Int) + key) % 256 ≠ 0) :
    encrypt_file (x ++ 0 :: rest) key = some (x.map (fun b => char_add b key) ++ 0 :: rest) := by
  rw [encrypt_file_eq _ key (by rw [strlen_append_zero x rest hx]; simp),
    shift_run_append_zero _ x rest hx (fun b hb h => hnz b hb ((char_add_eq_zero b key).mp h))]

theorem decrypt_file_append_zero (x rest : List Nat) (key : Int) (hx : ∀ b ∈ x, b ≠ 0)
    (hnz : ∀ b ∈ x, ((b : Int) - key) % 256 ≠ 0) :
    decrypt_file (x ++ 0 :: rest) key = some (x.map (fun b => char_sub b key) ++ 0 :: rest) := by
  rw [decrypt_file_eq _ key (by rw [strlen_append_zero x rest hx]; simp),
    shift_run_append_zero _ x rest hx (fun b hb h => hnz b hb ((char_sub_eq_zero b key).mp h))]

/-- A byte map with a left inverse on the bytes of two lists separates them. -/
theorem map_injective_of_left_inverse (f g : Nat → Nat) (x1 x2 : List Nat)
    (h1 : ∀ b ∈ x1, g (f b) = b) (h2 : ∀ b ∈ x2, g (f b) = b)
    (h : x1.map f = x2.map f) : x1 = x2 := by
  have e1 : (x1.map f).map g = x1 := by
    rw [List.map_map]
    conv_rhs => rw [← List.map_id x1]
    exact List.map_congr_left (fun a ha => by simp [h1 a ha])
  have e2 : (x2.map f).map g = x2 := by
    rw [List.map_map]
    conv_rhs => rw [← List.map_id x2]
    exact List.map_congr_left (fun a ha => by simp [h2 a ha])
  rw [← e1, ← e2, h]

/-- Injectivity of a shift on contents, from the shape of its results. -/
theorem content_injective (f g : Nat → Nat) (run : List Nat → Option (List Nat))
    (x1 x2 : List Nat)
    (hr1 : run (x1 ++ [0]) = some (x1.map f ++ [0]))
    (hr2 : run (x2 ++ [0]) = some (x2.map f ++ [0]))
    (hf1 : ∀ b ∈ x1, f b ≠ 0) (hf2 : ∀ b ∈ x2, f b ≠ 0)
    (h1 : ∀ b ∈ x1, g (f b) = b) (h2 : ∀ b ∈ x2, g (f b) = b)
    (h : (run (x1 ++ [0])).bind c_str = (run (x2 ++ [0])).bind c_str) : x1 = x2 := by
  have c1 : c_str (x1.map f ++ [0]) = some (x1.map f) :=
    c_str_append_zero _ [] (fun b hb => by
      obtain ⟨a, ha, rfl⟩ := List.mem_map.mp hb
      exact hf1 a ha)
  have c2 : c_str (x2.map f ++ [0]) = some (x2.map f) :=
    c_str_append_zero _ [] (fun b hb => by
      obtain ⟨a, ha, rfl⟩ := List.mem_map.mp hb
      exact hf2 a ha)
  rw [hr1, hr2, Option.some_bind, Option.some_bind, c1, c2] at h
  exact map_injective_of_left_inverse f g x1 x2 h1 h2 (Option.some.inj h)

/-- C4, as stated, fails: with key 1 the different contents `0xFF 0x07` and `0xFF 0x09` both
leave the empty content, since the zero byte stored first ends the loop and the string. -/
theorem bijection_counterexample :
    c_str [255, 7, 0] = some [255, 7] ∧ c_str [255, 9, 0] = some [255, 9] ∧
    (encrypt_file [255, 7, 0] 1).bind c_str = some [] ∧
    (encrypt_file [255, 9, 0] 1).bind c_str = some [] := by
  have h1 : encrypt_file [255, 7, 0] 1 = some [0, 7, 0] := by
    rw [encrypt_file_eq _ _ (by decide)]; decide
  have h2 : encrypt_file [255, 9, 0] 1 = some [0, 9, 0] := by
    rw [encrypt_file_eq _ _ (by decide)]; decide
  refine ⟨by decide, by decide, ?_, ?_⟩
  · rw [h1]; decide
  · rw [h2]; decide

/-- C4 (amended): for every fixed integer key, `encrypt_file` is one-to-one on the contents
(sequences of non-zero bytes, held in a NUL-terminated buffer) none of whose bytes is shifted
to zero, and every content holding no byte equal to `key mod 256` is the output of such an
input; likewise `decrypt_file`, with the shift by `-key`. -/
theorem bijection_of_no_zero (key : Int) :
    (∀ x1 x2 : List Nat, (∀ b ∈ x1, 0 < b ∧ b < 256) → (∀ b ∈ x2, 0 < b ∧ b < 256) →
      (∀ b ∈ x1, ((b : Int) + key) % 256 ≠ 0) → (∀ b ∈ x2, ((b : Int) + key) % 256 ≠ 0) →
      (encrypt_file (x1 ++ [0]) key).bind c_str = (encrypt_file (x2 ++ [0]) key).bind c_str →
      x1 = x2) ∧
    (∀ y : List Nat, (∀ b ∈ y, 0 < b ∧ b < 256) → (∀ b ∈ y, ((b : Int) - key) % 256 ≠ 0) →
      ∃ x : List Nat, (∀ b ∈ x, 0 < b ∧ b < 256) ∧ (∀ b ∈ x, ((b : Int) + key) % 256 ≠ 0) ∧
        (encrypt_file (x ++ [0]) key).bind c_str = some y) ∧
    (∀ x1 x2 : List Nat, (∀ b ∈ x1, 0 < b ∧ b < 256) → (∀ b ∈ x2, 0 < b ∧ b < 256) →
      (∀ b ∈ x1, ((b : Int) - key) % 256 ≠ 0) → (∀ b ∈ x2, ((b : Int) - key) % 256 ≠ 0) →
      (decrypt_file (x1 ++ [0]) key).bind c_str = (decrypt_file (x2 ++ [0]) key).bind c_str →
      x1 = x2) ∧
    (∀ y : List Nat, (∀ b ∈ y, 0 < b ∧ b < 256) → (∀ b ∈ y, ((b : Int) + key) % 256 ≠ 0) →
      ∃ x : List Nat, (∀ b ∈ x, 0 < b ∧ b < 256) ∧ (∀ b ∈ x, ((b : Int) - key) % 256 ≠ 0) ∧
        (decrypt_file (x ++ [0]) key).bind c_str = some y) := by
  have nz : ∀ x : List Nat, (∀ b ∈ x, 0 < b ∧ b < 256) → ∀ b ∈ x, b ≠ 0 :=
    fun x hx b hb => by have := (hx b hb).1; omega
  refine ⟨?_, ?_, ?_, ?_⟩
  · intro x1 x2 hx1 hx2 hz1 hz2 h
    exact content_injective (fun b => char_add b key) (fun b => char_sub b key)
      (fun t => encrypt_file t key) x1 x2
      (encrypt_file_append_zero x1 [] key (nz x1 hx1) hz1)
      (encrypt_file_append_zero x2 [] key (nz x2 hx2) hz2)
      (fun b hb h => hz1 b hb ((char_add_eq_zero b key).mp h))
      (fun b hb h => hz2 b hb ((char_add_eq_zero b key).mp h))
      (fun b hb => char_sub_add b key (hx1 b hb).2)
      (fun b hb => char_sub_add b key (hx2 b hb).2) h
  · intro y hy hz
    refine ⟨y.map (fun b => char_sub b key), ?_, ?_, ?_⟩
    · intro b hb
      obtain ⟨a, ha, rfl⟩ := List.mem_map.mp hb
      have h0 : char_sub a key ≠ 0 := fun h => hz a ha ((char_sub_eq_zero a key).mp h)
      exact ⟨by omega, char_sub_lt a key⟩
    · intro b hb
      obtain ⟨a, ha, rfl⟩ := List.mem_map.mp hb
      have := hy a ha
      rw [char_sub_eq]; omega
    · have hx : ∀ b ∈ y.map (fun b => char_sub b key), b ≠ 0 := by
        intro b hb
        obtain ⟨a, ha, rfl⟩ := List.mem_map.mp hb
        exact fun h => hz a ha ((char_sub_eq_zero a key).mp h)
      have hxz : ∀ b ∈ y.map (fun b => char_sub b key), ((b : Int) + key) % 256 ≠ 0 := by
        intro b hb
        obtain ⟨a, ha, rfl⟩ := List.mem_map.mp hb
        have := hy a ha
        rw [char_sub_eq]; omega
      rw [encrypt_file_append_zero _ [] key hx hxz, Option.some_bind, List.map_map]
      have hmap : y.map ((fun b => char_add b key) ∘ (fun b => char_sub b key)) = y := by
        conv_rhs => rw [← List.map_id y]
        exact List.map_congr_left (fun a ha => by simp [char_add_sub a key (hy a ha).2])
      rw [hmap]
      exact c_str_append_zero y [] (nz y hy)
  · intro x1 x2 hx1 hx2 hz1 hz2 h
    exact content_injective (fun b => char_sub b key) (fun b => char_add b key)
      (fun t => decrypt_file t key) x1 x2
      (decrypt_file_append_zero x1 [] key (nz x1 hx1) hz1)
      (decrypt_file_append_zero x2 [] key (nz x2 hx2) hz2)
      (fun b hb h => hz1 b hb ((char_sub_eq_zero b key).mp h))
      (fun b hb h => hz2 b hb ((char_sub_eq_zero b key).mp h))
      (fun b hb => char_add_sub b key (hx1 b hb).2)
      (fun b hb => char_add_sub b key (hx2 b hb).2) h
  · intro y hy hz
    refine ⟨y.map (fun b => char_add b key), ?_, ?_, ?_⟩
    · intro b hb
      obtain ⟨a, ha, rfl⟩ := List.mem_map.mp hb
      have h0 : char_add a key ≠ 0 := fun h => hz a ha ((char_add_eq_zero a key).mp h)
      exact ⟨by omega, char_add_lt a key⟩
    · intro b hb
      obtain ⟨a, ha, rfl⟩ := List.mem_map.mp hb
      have := hy a ha
      rw [char_add_eq]; omega
    · have hx : ∀ b ∈ y.map (fun b => char_add b key), b ≠ 0 := by
        intro b hb
        obtain ⟨a, ha, rfl⟩ := List.mem_map.mp hb
        exact fun h => hz a ha ((char_add_eq_zero a key).mp h)
      have hxz : ∀ b ∈ y.map (fun b => char_add b key), ((b : Int) - key) % 256 ≠ 0 := by
        intro b hb
        obtain ⟨a, ha, rfl⟩ := List.mem_map.mp hb
        have := hy a ha
        rw [char_add_eq]; omega
      rw [decrypt_file_append_zero _ [] key hx hxz, Option.some_bind, List.map_map]
      have hmap : y.map ((fun b => char_sub b key) ∘ (fun b => char_add b key)) = y := by
        conv_rhs => rw [← List.map_id y]
        exact List.map_congr_left (fun a ha => by simp [char_sub_add a key (hy a ha).2])
      rw [hmap]
      exact c_str_append_zero y [] (nz y hy)

/-- With key 3, "Kl" is the encryption of a content, and "Hi" and "Ho" encrypt differently. -/
theorem bijection_of_no_zero_witness :
    (∃ x : List Nat, (∀ b ∈ x, 0 < b ∧ b < 256) ∧ (∀ b ∈ x, ((b : Int) + 3) % 256 ≠ 0) ∧
      (encrypt_file (x ++ [0]) 3).bind c_str = some [75, 108]) ∧
    (encrypt_file ([72, 105] ++ [0]) 3).bind c_str ≠
      (encrypt_file ([72, 111] ++ [0]) 3).bind c_str :=
  ⟨(bijection_of_no_zero 3).2.1 [75, 108] (by decide) (by decide),
   fun h => absurd ((bijection_of_no_zero 3).1 [72, 105] [72, 111] (by decide) (by decide)
     (by decide) (by decide) h) (by decide)⟩

/-! ## The driver -/

theorem strlen_shift_run (f : Nat → Nat) : ∀ text : List Nat, strlen text ≠ none →
    strlen (shift_run f text) ≠ none
  | [], h => by simp [strlen] at h
  | b :: bs, h => by
    by_cases hb : b = 0
    · simp [shift_run, strlen, hb]
    · by_cases hf : f b = 0
      · simp [shift_run, strlen, hb]
        simp [hf, strlen]
      · have hbs : strlen bs ≠ none := by
          intro h2; apply h; simp [strlen, hb, h2]
        have ih := strlen_shift_run f bs hbs
        obtain ⟨m, hm⟩ := Option.ne_none_iff_exists'.mp ih
        simp [shift_run, strlen, hb, hf, hm]

theorem header_filename (s : String) :
    "caesar-cipher: error: " ++ ("filename " ++ s) = "caesar-cipher: error: filename " ++ s := by
  rw [← String.append_assoc]; rfl

theorem header_unrecognized (s : String) :
    "caesar-cipher: error: " ++ ("unrecognized arguments " ++ s) =
      "caesar-cipher: error: unrecognized arguments " ++ s := by
  rw [← String.append_assoc]; rfl

theorem header_the_file (s : String) :
    "caesar-cipher: error: " ++ ("the file " ++ s) = "caesar-cipher: error: the file " ++ s := by
  rw [← String.append_assoc]; rfl

theorem header_impossible (s : String) :
    "caesar-cipher: error: " ++ ("impossible to write in file " ++ s) =
      "caesar-cipher: error: impossible to write in file " ++ s := by
  rw [← String.append_assoc]; rfl

theorem header_invalid_key :
    "caesar-cipher: error: " ++ "invalid key" = "caesar-cipher: error: invalid key" := by
  decide

theorem header_missing :
    "caesar-cipher: error: " ++ "missing arguments" = "caesar-cipher: error: missing arguments" := by
  decide

theorem header_too_much :
    "caesar-cipher: error: " ++ "too much arguments" =
      "caesar-cipher: error: too much arguments" := by
  decide

theorem header_memory :
    "caesar-cipher: error: " ++ "memory allocation failure" =
      "caesar-cipher: error: memory allocation failure" := by
  decide

theorem main_five (prog mode key inp out : String) (w : World) :
    main [prog, mode, key, inp, out] w =
      match sscanf_d key with
      | none => .exited 1 { w with stdout := w.stdout ++ "caesar-cipher: error: invalid key" }
      | some k =>
      match sscanf_s 19 inp with
      | none => .exited 1
          { w with stdout := w.stdout ++ ("caesar-cipher: error: filename " ++ inp ++ " invalid") }
      | some i =>
      match sscanf_s 19 out with
      | none => .exited 1
          { w with stdout := w.stdout ++ ("caesar-cipher: error: filename " ++ out ++ " invalid") }
      | some o =>
      if mode ≠ "--encrypt" ∧ mode ≠ "--decrypt" ∧ mode ≠ "-e" ∧ mode ≠ "-d" then
        .exited 1 { w with stdout :=
          w.stdout ++ ("caesar-cipher: error: unrecognized arguments " ++ mode ++ "\n") }
      else
        match import_file w i with
        | .undefined => .undefined
        | .exited status w => .exited status w
        | .returned text w =>
          if mode = "--encrypt" ∨ mode = "-e" then
            match encrypt_file text k with
            | none => .undefined
            | some text =>
              match export_file w o text with
              | .undefined => .undefined
              | .exited status w => .exited status w
              | .returned _ w =>
                .exited 0 { w with stdout := w.stdout ++ "file successfully encrypted\n" }
          else
            match decrypt_file text k with
            | none => .undefined
            | some text =>
              match export_file w o text with
              | .undefined => .undefined
              | .exited status w => .exited status w
              | .returned _ w =>
                .exited 0 { w with stdout := w.stdout ++ "file successfully decrypted\n" } := by
  have hs : ∀ a b c : String, a ++ b ++ c = a ++ (b ++ c) := String.append_assoc
  unfold main
  simp only [List.length_cons, List.length_nil, List.getD_cons_succ, List.getD_cons_zero]
  cases hk : sscanf_d key with
  | none => simp [printf, print_error_header, EXIT_FAILURE, hs, header_invalid_key]
  | some k =>
    cases hi : sscanf_s 19 inp with
    | none => simp [printf, print_error_header, EXIT_FAILURE, hs, header_filename]
    | some i =>
      cases ho : sscanf_s 19 out with
      | none => simp [printf, print_error_header, EXIT_FAILURE, hs, header_filename]
      | some o =>
        simp [printf, print_error_header, print_arg_error, same_string, EXIT_FAILURE, EXIT_SUCCESS, hs,
          header_unrecognized]
        by_cases h1 : mode = "--encrypt" <;> by_cases h2 : mode = "-e" <;>
          by_cases h3 : mode = "--decrypt" <;> by_cases h4 : mode = "-d" <;>
          simp [h1, h2, h3, h4]

theorem sscanf_s_eq_none_iff (width : Nat) (p : String) :
    sscanf_s width p = none ↔ ∀ c ∈ p.toList, isspace c = true := by
  unfold sscanf_s
  split
  · rename_i h
    exact ⟨fun _ => List.dropWhile_eq_nil_iff.mp h, fun _ => rfl⟩
  · rename_i c cs h
    refine ⟨fun h2 => Option.noConfusion h2, fun hall => ?_⟩
    have := List.dropWhile_eq_nil_iff.mpr hall
    rw [this] at h
    exact List.noConfusion h

theorem sscanf_s_of_no_space (width : Nat) (p : String) (hne : p.toList ≠ [])
    (h : ∀ c ∈ p.toList, isspace c = false) :
    sscanf_s width p = some (String.mk (p.toList.take width)) := by
  unfold sscanf_s
  cases hl : p.toList with
  | nil => exact absurd hl hne
  | cons c cs =>
    rw [hl] at h
    have hc : isspace c = false := h c (by simp)
    have hcs : cs.takeWhile (fun d => !isspace d) = cs := by
      apply List.takeWhile_eq_self_iff.mpr
      intro d hd
      have hd2 : isspace d = false := h d (List.mem_cons_of_mem _ hd)
      simp [hd2]
    simp [List.dropWhile, hc, hcs]

theorem import_file_ok (w : World) (filename : String) (content block : List Nat)
    (hfile : w.files filename = some content)
    (hmalloc : w.malloc (content.length + 1) = some block) :
    import_file w filename =
      .returned (content ++ block.drop content.length)
        { w with fopens := w.fopens ++ [(filename, "r")] } := by
  simp [import_file, hfile, hmalloc]

theorem export_file_ok (w : World) (filename : String) (text : List Nat) (n : Nat)
    (hw : w.writable filename = true) (hn : strlen text = some n) :
    export_file w filename text =
      .returned () { w with
        fopens := w.fopens ++ [(filename, "w")]
        files := fun p => if p = filename then some (text.take n) else w.files p } := by
  simp [export_file, hw, hn]

theorem main_encrypt_of (prog mode key inp out : String) (w : World) (k : Int) (i o : String)
    (content block text : List Nat) (m : Nat)
    (hmode : mode = "--encrypt" ∨ mode = "-e")
    (hkey : sscanf_d key = some k) (hin : sscanf_s 19 inp = some i)
    (hout : sscanf_s 19 out = some o)
    (hfile : w.files i = some content) (hmalloc : w.malloc (content.length + 1) = some block)
    (hwr : w.writable o = true)
    (henc : encrypt_file (content ++ block.drop content.length) k = some text)
    (hm : strlen text = some m) :
    main [prog, mode, key, inp, out] w =
      .exited 0 { w with
        stdout := w.stdout ++ "file successfully encrypted\n"
        fopens := w.fopens ++ [(i, "r"), (o, "w")]
        files := fun p => if p = o then some (text.take m) else w.files p } := by
  have hnot : ¬ (mode ≠ "--encrypt" ∧ mode ≠ "--decrypt" ∧ mode ≠ "-e" ∧ mode ≠ "-d") := by
    rcases hmode with h | h <;> simp [h]
  rw [main_five]
  simp only [hkey, hin, hout, if_neg hnot, import_file_ok w i content block hfile hmalloc,
    if_pos hmode, henc]
  rw [export_file_ok _ o text m (by exact hwr) hm]
  simp

theorem main_decrypt_of (prog mode key inp out : String) (w : World) (k : Int) (i o : String)
    (content block text : List Nat) (m : Nat)
    (hmode : mode = "--decrypt" ∨ mode = "-d")
    (hkey : sscanf_d key = some k) (hin : sscanf_s 19 inp = some i)
    (hout : sscanf_s 19 out = some o)
    (hfile : w.files i = some content) (hmalloc : w.malloc (content.length + 1) = some block)
    (hwr : w.writable o = true)
    (hdec : decrypt_file (content ++ block.drop content.length) k = some text)
    (hm : strlen text = some m) :
    main [prog, mode, key, inp, out] w =
      .exited 0 { w with
        stdout := w.stdout ++ "file successfully decrypted\n"
        fopens := w.fopens ++ [(i, "r"), (o, "w")]
        files := fun p => if p = o then some (text.take m) else w.files p } := by
  have hnot : ¬ (mode ≠ "--encrypt" ∧ mode ≠ "--decrypt" ∧ mode ≠ "-e" ∧ mode ≠ "-d") := by
    rcases hmode with h | h <;> simp [h]
  have hne : ¬ (mode = "--encrypt" ∨ mode = "-e") := by
    rcases hmode with h | h <;> simp [h]
  rw [main_five]
  simp only [hkey, hin, hout, if_neg hnot, import_file_ok w i content block hfile hmalloc,
    if_neg hne, hdec]
  rw [export_file_ok _ o text m (by exact hwr) hm]
  simp

theorem encrypt_file_unterminated (text : List Nat) (key : Int) (h : strlen text = none) :
    encrypt_file text key = none := by
  rw [encrypt_file, encrypt_loop_eq, h]

theorem decrypt_file_unterminated (text : List Nat) (key : Int) (h : strlen text = none) :
    decrypt_file text key = none := by
  rw [decrypt_file, decrypt_loop_eq, h]

/-- When the loaded buffer holds no zero byte (the file has none and the byte left after it
is not zero), a transform run reads past the allocation. -/
theorem main_unterminated (prog mode key inp out : String) (w : World) (k : Int) (i o : String)
    (content block : List Nat)
    (hmode : mode = "--encrypt" ∨ mode = "-e" ∨ mode = "--decrypt" ∨ mode = "-d")
    (hkey : sscanf_d key = some k) (hin : sscanf_s 19 inp = some i)
    (hout : sscanf_s 19 out = some o)
    (hfile : w.files i = some content) (hmalloc : w.malloc (content.length + 1) = some block)
    (hterm : strlen (content ++ block.drop content.length) = none) :
    main [prog, mode, key, inp, out] w = .undefined := by
  have hnot : ¬ (mode ≠ "--encrypt" ∧ mode ≠ "--decrypt" ∧ mode ≠ "-e" ∧ mode ≠ "-d") := by
    rcases hmode with h | h | h | h <;> simp [h]
  rw [main_five]
  simp only [hkey, hin, hout, if_neg hnot, import_file_ok w i content block hfile hmalloc,
    encrypt_file_unterminated _ k hterm, decrypt_file_unterminated _ k hterm]
  split <;> rfl

/-- C5, as stated, fails: a file holding `0x41 0x00 0x42` is loaded whole, but `export_file`
writes the buffer only up to its first zero byte, so one byte reaches the output file. -/
theorem export_counterexample :
    (import_file world_nul "in").value = some [65, 0, 66, 0] ∧
    (export_file world_nul "out" [65, 0, 66, 0]).file "out" = some (some [65]) := by
  decide

/-- C5 (amended): for every buffer, after `export_file(path, buffer)` succeeds the file at
`path` holds exactly the bytes of the buffer that come before its first zero byte, in order,
replacing any previous content; no other file changes. -/
theorem export_file_writes_string (w : World) (filename : String) (x rest : List Nat)
    (hw : w.writable filename = true) (hx : ∀ b ∈ x, b ≠ 0) :
    export_file w filename (x ++ 0 :: rest) =
      .returned () { w with
        fopens := w.fopens ++ [(filename, "w")]
        files := fun p => if p = filename then some x else w.files p } := by
  rw [export_file_ok w filename _ x.length hw (strlen_append_zero x rest hx)]
  simp

/-- Writing the buffer `"Kl"`, followed by its terminator and a stray byte, to `out`. -/
theorem export_file_writes_string_witness :
    export_file world_hi "out" ([75, 108] ++ 0 :: [9]) =
      .returned () { world_hi with
        fopens := world_hi.fopens ++ [("out", "w")]
        files := fun p => if p = "out" then some [75, 108] else world_hi.files p } :=
  export_file_writes_string world_hi "out" [75, 108] [9] (by decide) (by decide)

/-- C6, as stated, fails: the output path `out file` passes validation, and the result is
saved to the file `out` (the first word of the path), not to the output path. -/
theorem successful_run_counterexample :
    sscanf_s 19 "out file" = some "out" ∧
    (main ["caesar", "-e", "3", "in", "out file"] world_hi).status = some 0 ∧
    (main ["caesar", "-e", "3", "in", "out file"] world_hi).file "out file" = some none ∧
    (main ["caesar", "-e", "3", "in", "out file"] world_hi).file "out" = some (some [75, 108]) := by
  have henc : encrypt_file ([72, 105] ++ List.drop [72, 105].length [0, 0, 0]) 3
      = some [75, 108, 0] := by
    rw [encrypt_file_eq _ _ (by decide)]; decide
  have h := main_encrypt_of "caesar" "-e" "3" "in" "out file" world_hi 3
    "in" "out" [72, 105] [0, 0, 0] [75, 108, 0] 2 (by decide) (by decide)
    (by decide) (by decide) (by decide) (by decide) (by decide) henc (by decide)
  rw [h]
  refine ⟨by decide, rfl, ?_, ?_⟩
  · simp [Run.file, Run.world, world_hi]
  · simp [Run.file, Run.world]

/-- C6 (amended): for every argument list `[mode, key, input, output]` that passes validation,
with `i` and `o` the names read from `input` and `output` (their first word, cut to 19
characters), such that file `i` can be read into a buffer holding a zero byte, memory can be
allocated and `o` can be written: the program applies `encrypt_file` when `mode` is `--encrypt`
or `-e` and `decrypt_file` when it is `--decrypt` or `-d`, with the parsed key, to the loaded
buffer, saves the string the buffer then holds to `o`, prints the success line naming the
operation and exits with status 0. -/
theorem successful_run (prog mode key inp out : String) (w : World) (k : Int) (i o : String)
    (content block : List Nat) (n : Nat)
    (hkey : sscanf_d key = some k) (hin : sscanf_s 19 inp = some i)
    (hout : sscanf_s 19 out = some o)
    (hfile : w.files i = some content) (hmalloc : w.malloc (content.length + 1) = some block)
    (hterm : strlen (content ++ block.drop content.length) = some n)
    (hwr : w.writable o = true) :
    ((mode = "--encrypt" ∨ mode = "-e") →
      ∃ text m, encrypt_file (content ++ block.drop content.length) k = some text ∧
        strlen text = some m ∧
        main [prog, mode, key, inp, out] w =
          .exited 0 { w with
            stdout := w.stdout ++ "file successfully encrypted\n"
            fopens := w.fopens ++ [(i, "r"), (o, "w")]
            files := fun p => if p = o then some (text.take m) else w.files p }) ∧
    ((mode = "--decrypt" ∨ mode = "-d") →
      ∃ text m, decrypt_file (content ++ block.drop content.length) k = some text ∧
        strlen text = some m ∧
        main [prog, mode, key, inp, out] w =
          .exited 0 { w with
            stdout := w.stdout ++ "file successfully decrypted\n"
            fopens := w.fopens ++ [(i, "r"), (o, "w")]
            files := fun p => if p = o then some (text.take m) else w.files p }) := by
  have hne : strlen (content ++ block.drop content.length) ≠ none := by simp [hterm]
  constructor
  · intro hmode
    have henc := encrypt_file_eq _ k hne
    obtain ⟨m, hm⟩ := Option.ne_none_iff_exists'.mp
      (strlen_shift_run (fun b => char_add b k) _ hne)
    exact ⟨_, m, henc, hm,
      main_encrypt_of prog mode key inp out w k i o content block _ m hmode hkey hin hout hfile
        hmalloc hwr henc hm⟩
  · intro hmode
    have hdec := decrypt_file_eq _ k hne
    obtain ⟨m, hm⟩ := Option.ne_none_iff_exists'.mp
      (strlen_shift_run (fun b => char_sub b k) _ hne)
    exact ⟨_, m, hdec, hm,
      main_decrypt_of prog mode key inp out w k i o content block _ m hmode hkey hin hout hfile
        hmalloc hwr hdec hm⟩

/-- Encrypting and decrypting the file `in` of `world_hi` with key 3 into `out` succeed. -/
theorem successful_run_witness :
    (∃ text m, encrypt_file ([72, 105] ++ List.drop [72, 105].length [0, 0, 0]) 3 = some text ∧
      strlen text = some m ∧
      main ["caesar", "--encrypt", "3", "in", "out"] world_hi =
        .exited 0 { world_hi with
          stdout := world_hi.stdout ++ "file successfully encrypted\n"
          fopens := world_hi.fopens ++ [("in", "r"), ("out", "w")]
          files := fun p => if p = "out" then some (text.take m) else world_hi.files p }) ∧
    (∃ text m, decrypt_file ([72, 105] ++ List.drop [72, 105].length [0, 0, 0]) 3 = some text ∧
      strlen text = some m ∧
      main ["caesar", "-d", "3", "in", "out"] world_hi =
        .exited 0 { world_hi with
          stdout := world_hi.stdout ++ "file successfully decrypted\n"
          fopens := world_hi.fopens ++ [("in", "r"), ("out", "w")]
          files := fun p => if p = "out" then some (text.take m) else world_hi.files p }) :=
  ⟨(successful_run "caesar" "--encrypt" "3" "in" "out" world_hi 3 "in" "out" [72, 105] [0, 0, 0] 2
      (by decide) (by decide) (by decide) (by decide) (by decide) (by decide) (by decide)).1
      (by decide),
   (successful_run "caesar" "-d" "3" "in" "out" world_hi 3 "in" "out" [72, 105] [0, 0, 0] 2
      (by decide) (by decide) (by decide) (by decide) (by decide) (by decide) (by decide)).2
      (by decide)⟩

/-- C7: with `argc` equal to 1, 3 or 4, whatever the arguments, the program prints
"caesar-cipher: error: missing arguments" and exits with status 1; no file is opened and the
file system is unchanged. -/
theorem missing_arguments (argv : List String) (w : World)
    (h : argv.length = 1 ∨ argv.length = 3 ∨ argv.length = 4) :
    main argv w =
      .exited 1 { w with stdout := w.stdout ++ "caesar-cipher: error: missing arguments" } := by
  unfold main
  rcases h with h | h | h <;> rw [h] <;>
    simp [printf, print_error_header, EXIT_FAILURE, String.append_assoc, header_missing]

/-- Two extra arguments give the "missing arguments" error. -/
theorem missing_arguments_witness :
    main ["caesar", "-e", "3"] world_hi =
      .exited 1 { world_hi with
        stdout := world_hi.stdout ++ "caesar-cipher: error: missing arguments" } :=
  missing_arguments ["caesar", "-e", "3"] world_hi (by decide)

/-- C8: with exactly one extra argument `a`, the program prints the version line and exits 0
when `a` is `--version` or `-v`, prints the help text and exits 0 when `a` is `--help` or `-h`,
and otherwise prints "caesar-cipher: error: unrecognized arguments " followed by `a` and exits
with status 1; in every case no file is opened and the file system is unchanged. -/
theorem one_argument_dispatch (prog a : String) (w : World) :
    ((a = "--version" ∨ a = "-v") →
      main [prog, a] w = .exited 0 { w with stdout := w.stdout ++ "caesar-cipher version 1.0\n" }) ∧
    ((a = "--help" ∨ a = "-h") →
      main [prog, a] w = .exited 0 { w with stdout := w.stdout ++
        "Usage: ./main [-e | -d] key input_file output_file\n              -d, --decrypt     decrypt input_file with the given key\n              -e, --encrypt     encrypt input_file with the given key\n              -h, --help        display this help and exit\n              -v, --version     display version and exit\n            " }) ∧
    ((a ≠ "--version" ∧ a ≠ "-v" ∧ a ≠ "--help" ∧ a ≠ "-h") →
      main [prog, a] w = .exited 1 { w with stdout := w.stdout ++
        ("caesar-cipher: error: unrecognized arguments " ++ a ++ "\n") }) := by
  refine ⟨?_, ?_, ?_⟩
  · intro h
    rcases h with h | h <;> subst h <;>
      simp [main, same_string, print_version, printf, EXIT_SUCCESS]
  · intro h
    rcases h with h | h <;> subst h <;>
      simp [main, same_string, print_help, printf, EXIT_SUCCESS]
  · rintro ⟨h1, h2, h3, h4⟩
    simp [main, same_string, h1, h2, h3, h4, print_arg_error, print_error_header, printf,
      EXIT_FAILURE, String.append_assoc, header_unrecognized]

/-- The unknown flag `--foo` is reported by name. -/
theorem one_argument_dispatch_witness :
    main ["caesar", "--foo"] world_hi = .exited 1 { world_hi with stdout :=
      world_hi.stdout ++ ("caesar-cipher: error: unrecognized arguments " ++ "--foo" ++ "\n") } :=
  (one_argument_dispatch "caesar" "--foo" world_hi).2.2 (by decide)

theorem sscanf_s_isSome (width : Nat) (p : String) (h : ∃ c ∈ p.toList, isspace c = false) :
    ∃ name, sscanf_s width p = some name := by
  cases hp : sscanf_s width p with
  | some name => exact ⟨name, rfl⟩
  | none =>
    obtain ⟨c, hc, hsp⟩ := h
    have := (sscanf_s_eq_none_iff width p).mp hp c hc
    rw [hsp] at this
    exact Bool.noConfusion this

/-- C12, as stated, fails: with five extra arguments the program prints "too much arguments",
not "too many arguments". -/
theorem too_many_arguments_counterexample :
    (main ["caesar", "-e", "3", "in", "out", "extra"] world_hi).stdout
      = some "caesar-cipher: error: too much arguments" ∧
    (main ["caesar", "-e", "3", "in", "out", "extra"] world_hi).stdout
      ≠ some "caesar-cipher: error: too many arguments" := by
  decide

/-- C12 (amended): for every invocation with more than four extra arguments (`argc > 5`), the
program prints "caesar-cipher: error: too much arguments", exits with status 1 and performs no
file I/O. -/
theorem too_much_arguments (argv : List String) (w : World) (h : 5 < argv.length) :
    main argv w =
      .exited 1 { w with stdout := w.stdout ++ "caesar-cipher: error: too much arguments" } := by
  unfold main
  split
  · omega
  · omega
  · omega
  · omega
  · omega
  · simp [printf, print_error_header, EXIT_FAILURE, String.append_assoc, header_too_much]

/-- Five extra arguments give the "too much arguments" error. -/
theorem too_much_arguments_witness :
    main ["caesar", "-e", "3", "in", "out", "extra"] world_hi =
      .exited 1 { world_hi with
        stdout := world_hi.stdout ++ "caesar-cipher: error: too much arguments" } :=
  too_much_arguments ["caesar", "-e", "3", "in", "out", "extra"] world_hi (by decide)

theorem main_import_fails (prog mode key inp out : String) (w : World) (k : Int) (i o : String)
    (hmode : mode = "--encrypt" ∨ mode = "-e" ∨ mode = "--decrypt" ∨ mode = "-d")
    (hkey : sscanf_d key = some k) (hin : sscanf_s 19 inp = some i)
    (hout : sscanf_s 19 out = some o) (hfile : w.files i = none) :
    main [prog, mode, key, inp, out] w =
      .exited 1 { w with
        stdout := w.stdout ++ ("caesar-cipher: error: the file " ++ i ++ " does not exist\n")
        fopens := w.fopens ++ [(i, "r")] } := by
  have hnot : ¬ (mode ≠ "--encrypt" ∧ mode ≠ "--decrypt" ∧ mode ≠ "-e" ∧ mode ≠ "-d") := by
    rcases hmode with h | h | h | h <;> simp [h]
  have himp : import_file w i = .exited 1 { w with
      stdout := w.stdout ++ ("caesar-cipher: error: the file " ++ i ++ " does not exist\n")
      fopens := w.fopens ++ [(i, "r")] } := by
    simp [import_file, hfile, printf, print_error_header, EXIT_FAILURE, String.append_assoc,
      header_the_file]
  rw [main_five]
  simp only [hkey, hin, hout, if_neg hnot, himp]

theorem sscanf_s_self (p : String) (hne : p.toList ≠ [])
    (hsp : ∀ c ∈ p.toList, isspace c = false) (hlen : p.toList.length ≤ 19) :
    sscanf_s 19 p = some p := by
  rw [sscanf_s_of_no_space 19 p hne hsp, List.take_of_length_le hlen]
  rfl

/-- C13, as stated, fails: the input path `in put` names no file, yet the program reads the
file `in` (the first word of the path), succeeds and creates the output file. -/
theorem missing_input_counterexample :
    world_hi.files "in put" = none ∧
    (main ["caesar", "-e", "3", "in put", "out"] world_hi).status = some 0 ∧
    (main ["caesar", "-e", "3", "in put", "out"] world_hi).file "out" = some (some [75, 108]) := by
  have henc : encrypt_file ([72, 105] ++ List.drop [72, 105].length [0, 0, 0]) 3
      = some [75, 108, 0] := by
    rw [encrypt_file_eq _ _ (by decide)]; decide
  have h := main_encrypt_of "caesar" "-e" "3" "in put" "out" world_hi 3
    "in" "out" [72, 105] [0, 0, 0] [75, 108, 0] 2 (by decide) (by decide)
    (by decide) (by decide) (by decide) (by decide) (by decide) henc (by decide)
  rw [h]
  refine ⟨by decide, rfl, ?_⟩
  simp [Run.file, Run.world]

/-- C13 (amended): for every otherwise valid invocation `[mode, key, input, output]`, with `i`
the file name read from `input` (its first word, cut to 19 characters; `input` itself when it
has no white space and at most 19 characters): if `i` cannot be opened for reading, the program
prints "caesar-cipher: error: the file `i` does not exist", exits with status 1, and leaves
every file as it was; the output file is not even opened. -/
theorem missing_input_file (prog mode key inp out : String) (w : World) (k : Int) (o : String)
    (hmode : mode = "--encrypt" ∨ mode = "-e" ∨ mode = "--decrypt" ∨ mode = "-d")
    (hkey : sscanf_d key = some k) (hout : sscanf_s 19 out = some o) :
    (∀ i, sscanf_s 19 inp = some i → w.files i = none →
      main [prog, mode, key, inp, out] w =
        .exited 1 { w with
          stdout := w.stdout ++ ("caesar-cipher: error: the file " ++ i ++ " does not exist\n")
          fopens := w.fopens ++ [(i, "r")] }) ∧
    (inp.toList ≠ [] → (∀ c ∈ inp.toList, isspace c = false) → inp.toList.length ≤ 19 →
      w.files inp = none →
      main [prog, mode, key, inp, out] w =
        .exited 1 { w with
          stdout := w.stdout ++ ("caesar-cipher: error: the file " ++ inp ++ " does not exist\n")
          fopens := w.fopens ++ [(inp, "r")] }) :=
  ⟨fun i hin hfile => main_import_fails prog mode key inp out w k i o hmode hkey hin hout hfile,
   fun hne hsp hlen hfile => main_import_fails prog mode key inp out w k inp o hmode hkey
     (sscanf_s_self inp hne hsp hlen) hout hfile⟩

/-- The scenario of the specification: `nonexistent.txt` is reported and `out.txt` is not
created. -/
theorem missing_input_file_witness :
    main ["caesar", "--encrypt", "5", "nonexistent.txt", "out.txt"] world_hi =
      .exited 1 { world_hi with
        stdout := world_hi.stdout ++
          ("caesar-cipher: error: the file " ++ "nonexistent.txt" ++ " does not exist\n")
        fopens := world_hi.fopens ++ [("nonexistent.txt", "r")] } :=
  (missing_input_file "caesar" "--encrypt" "5" "nonexistent.txt" "out.txt" world_hi 5 "out.txt"
    (by decide) (by decide) (by decide)).2 (by decide) (by decide) (by decide) (by decide)

/-! ## The cipher: identity key, wraparound, early stop, periodicity -/

theorem shift_run_of_fixed (f : Nat → Nat) (text : List Nat) (n : Nat)
    (hn : strlen text = some n) (hf : ∀ b ∈ text.take n, f b = b) :
    shift_run f text = text := by
  have hnz : ∀ b ∈ text.take n, f b ≠ 0 := fun b hb => by
    rw [hf b hb]; exact strlen_take_ne_zero text n hn b hb
  rw [shift_run_of_ne_zero f text n hn hnz]
  have : (text.take n).map f = text.take n := by
    conv_rhs => rw [← List.map_id (text.take n)]
    exact List.map_congr_left (fun a ha => by simp [hf a ha])
  rw [this, List.take_append_drop]

/-- C14: for every NUL-terminated buffer of bytes, `encrypt_file` with key 0 and `decrypt_file`
with key 0 both leave the buffer unchanged. -/
theorem identity_key (text : List Nat) (n : Nat) (hn : strlen text = some n)
    (hbytes : ∀ b ∈ text, b < 256) :
    encrypt_file text 0 = some text ∧ decrypt_file text 0 = some text := by
  have hne : strlen text ≠ none := by simp [hn]
  constructor
  · rw [encrypt_file_eq text 0 hne, shift_run_of_fixed _ text n hn]
    intro b hb
    have := hbytes b (List.mem_of_mem_take hb)
    rw [char_add_eq]; omega
  · rw [decrypt_file_eq text 0 hne, shift_run_of_fixed _ text n hn]
    intro b hb
    have := hbytes b (List.mem_of_mem_take hb)
    rw [char_sub_eq]; omega

/-- Key 0 leaves the buffer holding "Hi" as it is. -/
theorem identity_key_witness :
    encrypt_file [72, 105, 0] 0 = some [72, 105, 0] ∧
    decrypt_file [72, 105, 0] 0 = some [72, 105, 0] :=
  identity_key [72, 105, 0] 2 (by decide) (by decide)

/-- C15: the byte 255 shifted by key 1 is the byte 0, and `encrypt_file` with key 1 turns the
buffer holding the single byte 255 (and its terminator) into one holding the byte 0; for every
byte and key the stored byte is the sum reduced modulo 256, never clamped. -/
theorem wraparound :
    char_add 255 1 = 0 ∧ encrypt_file [255, 0] 1 = some [0, 0] ∧
    ∀ (b : Nat) (key : Int), char_add b key = (((b : Int) + key) % 256).toNat := by
  refine ⟨by decide, ?_, char_add_eq⟩
  rw [encrypt_file_eq _ _ (by decide)]; decide

theorem split_at_index (text : List Nat) (j : Nat) (hj : j < text.length) :
    text = text.take j ++ text.getD j 0 :: text.drop (j + 1) := by
  rw [List.getD_eq_getElem text 0 hj, ← List.drop_eq_getElem_cons hj, List.take_append_drop]

theorem shift_run_stop (f : Nat → Nat) (pre rest : List Nat) (b : Nat)
    (hpre : ∀ c ∈ pre, c ≠ 0) (hf : ∀ c ∈ pre, f c ≠ 0) (hb : b ≠ 0) (hz : f b = 0) :
    shift_run f (pre ++ b :: rest) = pre.map f ++ 0 :: rest := by
  induction pre with
  | nil => simp [shift_run, hb, hz]
  | cons a as ih =>
    have h1 : a ≠ 0 := hpre a (by simp)
    have h2 : f a ≠ 0 := hf a (by simp)
    have := ih (fun c hc => hpre c (by simp [hc])) (fun c hc => hf c (by simp [hc]))
    simp [shift_run, h1, h2, this]

/-- A shift loop that stores its first zero byte at index `j` has mapped `f` over the bytes up
to `j`, left the rest, and ends with a string of length `j`. -/
theorem shift_run_stop_at (f : Nat → Nat) (text : List Nat) (n j : Nat)
    (hn : strlen text = some n) (hj : j < n) (hz : f (text.getD j 0) = 0)
    (hnz : ∀ b ∈ text.take j, f b ≠ 0) :
    shift_run f text = (text.take (j + 1)).map f ++ text.drop (j + 1) ∧
    strlen (shift_run f text) = some j := by
  have hlen := strlen_lt_length text n hn
  have hjl : j < text.length := by omega
  have hsplit := split_at_index text j hjl
  have hpre : ∀ c ∈ text.take j, c ≠ 0 := by
    intro c hc
    apply strlen_take_ne_zero text n hn c
    have : text.take j = (text.take n).take j := by
      rw [List.take_take]; congr 1; omega
    rw [this] at hc
    exact List.mem_of_mem_take hc
  have hb : text.getD j 0 ≠ 0 := by
    apply strlen_take_ne_zero text n hn
    rw [List.getD_eq_getElem text 0 hjl]
    exact List.mem_take_iff_getElem.mpr ⟨j, by omega, rfl⟩
  have hrun := shift_run_stop f (text.take j) (text.drop (j + 1)) (text.getD j 0) hpre hnz hb hz
  rw [← hsplit] at hrun
  have htake : text.take (j + 1) = text.take j ++ [text.getD j 0] := by
    rw [List.getD_eq_getElem text 0 hjl, List.take_succ, List.getElem?_eq_getElem hjl]
    rfl
  constructor
  · rw [hrun, htake]
    simp only [List.map_append, List.map_cons, List.map_nil, hz, List.append_assoc,
      List.singleton_append]
  · rw [hrun]
    have hmap : ∀ c ∈ (text.take j).map f, c ≠ 0 := by
      intro c hc
      obtain ⟨a, ha, rfl⟩ := List.mem_map.mp hc
      exact hnz a ha
    rw [strlen_append_zero _ _ hmap]
    simp
    omega

/-- C17: for every NUL-terminated buffer with content length `n` and every key: when `j` is the
least index below `n` whose byte is shifted to zero, `encrypt_file` replaces the bytes at the
indices up to `j` by `(b + key) mod 256`, leaves the bytes after `j` unchanged, and the content
length afterwards is `j`; when no byte below `n` is shifted to zero, it replaces all the bytes
below `n` and the content length stays `n`. The same holds for `decrypt_file` with
`(b - key) mod 256`. -/
theorem early_stop (text : List Nat) (key : Int) (n : Nat) (hn : strlen text = some n) :
    (∀ j, j < n → ((text.getD j 0 : Nat) + key) % 256 = 0 →
      (∀ b ∈ text.take j, ((b : Int) + key) % 256 ≠ 0) →
      encrypt_file text key =
        some ((text.take (j + 1)).map (fun (b : Nat) => (((b : Int) + key) % 256).toNat)
          ++ text.drop (j + 1)) ∧
      (encrypt_file text key).bind strlen = some j) ∧
    ((∀ b ∈ text.take n, ((b : Int) + key) % 256 ≠ 0) →
      encrypt_file text key =
        some ((text.take n).map (fun (b : Nat) => (((b : Int) + key) % 256).toNat)
          ++ text.drop n) ∧
      (encrypt_file text key).bind strlen = some n) ∧
    (∀ j, j < n → ((text.getD j 0 : Nat) - key) % 256 = 0 →
      (∀ b ∈ text.take j, ((b : Int) - key) % 256 ≠ 0) →
      decrypt_file text key =
        some ((text.take (j + 1)).map (fun (b : Nat) => (((b : Int) - key) % 256).toNat)
          ++ text.drop (j + 1)) ∧
      (decrypt_file text key).bind strlen = some j) ∧
    ((∀ b ∈ text.take n, ((b : Int) - key) % 256 ≠ 0) →
      decrypt_file text key =
        some ((text.take n).map (fun (b : Nat) => (((b : Int) - key) % 256).toNat)
          ++ text.drop n) ∧
      (decrypt_file text key).bind strlen = some n) := by
  have hne : strlen text ≠ none := by simp [hn]
  refine ⟨?_, ?_, ?_, ?_⟩
  · intro j hj hz hnz
    have h := shift_run_stop_at (fun b => char_add b key) text n j hn hj
      ((char_add_eq_zero _ key).mpr hz)
      (fun b hb h0 => hnz b hb ((char_add_eq_zero b key).mp h0))
    rw [encrypt_file_eq text key hne, Option.some_bind, h.2, h.1]
    simp only [char_add_eq, and_self]
  · intro hnz
    have hf : ∀ b ∈ text.take n, char_add b key ≠ 0 := fun b hb h0 =>
      hnz b hb ((char_add_eq_zero b key).mp h0)
    rw [encrypt_file_eq text key hne, Option.some_bind,
      strlen_shift_run_of_ne_zero _ text n hn hf, shift_run_of_ne_zero _ text n hn hf]
    simp only [char_add_eq, and_self]
  · intro j hj hz hnz
    have h := shift_run_stop_at (fun b => char_sub b key) text n j hn hj
      ((char_sub_eq_zero _ key).mpr hz)
      (fun b hb h0 => hnz b hb ((char_sub_eq_zero b key).mp h0))
    rw [decrypt_file_eq text key hne, Option.some_bind, h.2, h.1]
    simp only [char_sub_eq, and_self]
  · intro hnz
    have hf : ∀ b ∈ text.take n, char_sub b key ≠ 0 := fun b hb h0 =>
      hnz b hb ((char_sub_eq_zero b key).mp h0)
    rw [decrypt_file_eq text key hne, Option.some_bind,
      strlen_shift_run_of_ne_zero _ text n hn hf, shift_run_of_ne_zero _ text n hn hf]
    simp only [char_sub_eq, and_self]

/-- With key 1 the loop over `0x41 0xFF 0x42` stops after index 1; with key 3 the loop over
"Kl" runs to the terminator when decrypting. -/
theorem early_stop_witness :
    (encrypt_file [65, 255, 66, 0] 1 =
      some (([65, 255, 66, 0].take (1 + 1)).map (fun (b : Nat) => (((b : Int) + 1) % 256).toNat)
        ++ [65, 255, 66, 0].drop (1 + 1)) ∧
     (encrypt_file [65, 255, 66, 0] 1).bind strlen = some 1) ∧
    (decrypt_file [75, 108, 0] 3 =
      some (([75, 108, 0].take 2).map (fun (b : Nat) => (((b : Int) - 3) % 256).toNat)
        ++ [75, 108, 0].drop 2) ∧
     (decrypt_file [75, 108, 0] 3).bind strlen = some 2) :=
  ⟨(early_stop [65, 255, 66, 0] 1 3 (by decide)).1 1 (by decide) (by decide) (by decide),
   (early_stop [75, 108, 0] 3 2 (by decide)).2.2.2 (by decide)⟩

/-- C18: for every content `x` of non-zero bytes in a NUL-terminated buffer and every integer
key `k` such that no byte `b` of `x` has `(b + k) mod 256 = 0`, `encrypt_file` leaves a content
`y` of the same length as `x`, and `decrypt_file` with key `k` run on that result gives back
exactly the original buffer. -/
theorem conditional_round_trip (x rest : List Nat) (key : Int)
    (hx : ∀ b ∈ x, 0 < b ∧ b < 256) (hnz : ∀ b ∈ x, ((b : Int) + key) % 256 ≠ 0) :
    ∃ y, encrypt_file (x ++ 0 :: rest) key = some (y ++ 0 :: rest) ∧
      c_str (y ++ 0 :: rest) = some y ∧ y.length = x.length ∧
      decrypt_file (y ++ 0 :: rest) key = some (x ++ 0 :: rest) := by
  have hx0 : ∀ b ∈ x, b ≠ 0 := fun b hb => by have := (hx b hb).1; omega
  have hy0 : ∀ c ∈ x.map (fun b => char_add b key), c ≠ 0 := by
    intro c hc
    obtain ⟨a, ha, rfl⟩ := List.mem_map.mp hc
    exact fun h0 => hnz a ha ((char_add_eq_zero a key).mp h0)
  have hyz : ∀ c ∈ x.map (fun b => char_add b key), ((c : Int) - key) % 256 ≠ 0 := by
    intro c hc
    obtain ⟨a, ha, rfl⟩ := List.mem_map.mp hc
    have := hx a ha
    rw [char_add_eq]; omega
  refine ⟨x.map (fun b => char_add b key), encrypt_file_append_zero x rest key hx0 hnz,
    c_str_append_zero _ rest hy0, by simp, ?_⟩
  rw [decrypt_file_append_zero _ rest key hy0 hyz, List.map_map]
  have hmap : x.map ((fun b => char_sub b key) ∘ (fun b => char_add b key)) = x := by
    conv_rhs => rw [← List.map_id x]
    exact List.map_congr_left (fun a ha => by simp [char_sub_add a key (hx a ha).2])
  rw [hmap]

/-- The content "Hi" followed by its terminator and a stray byte round-trips under key 3. -/
theorem conditional_round_trip_witness :
    ∃ y, encrypt_file ([72, 105] ++ 0 :: [9]) 3 = some (y ++ 0 :: [9]) ∧
      c_str (y ++ 0 :: [9]) = some y ∧ y.length = [72, 105].length ∧
      decrypt_file (y ++ 0 :: [9]) 3 = some ([72, 105] ++ 0 :: [9]) :=
  conditional_round_trip [72, 105] [9] 3 (by decide) (by decide)

/-- C20: for every buffer and all integer keys `k` and `k'` congruent modulo 256,
`encrypt_file` gives the same result with `k` as with `k'` (and so does `decrypt_file`), every
multiple of 256 leaves a NUL-terminated buffer of bytes unchanged, and `decrypt_file` with key
`k` gives the same result as `encrypt_file` with key `-k`. -/
theorem key_periodicity (text : List Nat) (k k' : Int) :
    (k % 256 = k' % 256 →
      encrypt_file text k = encrypt_file text k' ∧ decrypt_file text k = decrypt_file text k') ∧
    decrypt_file text k = encrypt_file text (-k) ∧
    (∀ (m : Int) (n : Nat), strlen text = some n → (∀ b ∈ text, b < 256) →
      encrypt_file text (256 * m) = some text) := by
  refine ⟨?_, ?_, ?_⟩
  · intro hk
    cases hs : strlen text with
    | none =>
      rw [encrypt_file_unterminated text k hs, encrypt_file_unterminated text k' hs,
        decrypt_file_unterminated text k hs, decrypt_file_unterminated text k' hs]
      exact ⟨rfl, rfl⟩
    | some n =>
      have hne : strlen text ≠ none := by simp [hs]
      have h1 : (fun b => char_add b k) = (fun b => char_add b k') := by
        funext b; rw [char_add_eq, char_add_eq]; omega
      have h2 : (fun b => char_sub b k) = (fun b => char_sub b k') := by
        funext b; rw [char_sub_eq, char_sub_eq]; omega
      rw [encrypt_file_eq text k hne, encrypt_file_eq text k' hne,
        decrypt_file_eq text k hne, decrypt_file_eq text k' hne, h1, h2]
      exact ⟨rfl, rfl⟩
  · cases hs : strlen text with
    | none => rw [encrypt_file_unterminated text (-k) hs, decrypt_file_unterminated text k hs]
    | some n =>
      have hne : strlen text ≠ none := by simp [hs]
      have h1 : (fun b => char_sub b k) = (fun b => char_add b (-k)) := by
        funext b; rw [char_add_eq, char_sub_eq]; omega
      rw [encrypt_file_eq text (-k) hne, decrypt_file_eq text k hne, h1]
  · intro m n hn hbytes
    rw [encrypt_file_eq text _ (by simp [hn]), shift_run_of_fixed _ text n hn]
    intro b hb
    have := hbytes b (List.mem_of_mem_take hb)
    rw [char_add_eq]; omega

/-- Keys 3 and 259 encrypt "Hi" alike, decrypting with 3 is encrypting with -3, and key 512
changes nothing. -/
theorem key_periodicity_witness :
    (encrypt_file [72, 105, 0] 3 = encrypt_file [72, 105, 0] 259 ∧
      decrypt_file [72, 105, 0] 3 = decrypt_file [72, 105, 0] 259) ∧
    encrypt_file [72, 105, 0] (256 * 2) = some [72, 105, 0] :=
  ⟨(key_periodicity [72, 105, 0] 3 259).1 (by decide),
   (key_periodicity [72, 105, 0] 3 259).2.2 2 2 (by decide) (by decide)⟩

/-! ## The loops stay inside the string -/

theorem encrypt_trace_eq (key : Int) (text : List Nat) (i : Nat) :
    encrypt_trace key text i =
      match strlen text with
      | none => none
      | some n =>
        if i < n then
          (encrypt_trace key (text.set i (char_add (text.getD i 0) key)) (i + 1)).map
            (fun r => (r.1, i :: r.2))
        else some (text, []) := by
  rw [encrypt_trace]
  split <;> simp_all

theorem decrypt_trace_eq (key : Int) (text : List Nat) (i : Nat) :
    decrypt_trace key text i =
      match strlen text with
      | none => none
      | some n =>
        if i < n then
          (decrypt_trace key (text.set i (char_sub (text.getD i 0) key)) (i + 1)).map
            (fun r => (r.1, i :: r.2))
        else some (text, []) := by
  rw [decrypt_trace]
  split <;> simp_all

/-- Any function obeying the equation of a recorded loop ends with the buffer `shift_run`
describes, having stored only at indices from its counter up to the terminator. -/
theorem trace_spec (f : Nat → Nat) (tr : List Nat → Nat → Option (List Nat × List Nat))
    (htr : ∀ text i, tr text i =
      match strlen text with
      | none => none
      | some n =>
        if i < n then (tr (text.set i (f (text.getD i 0))) (i + 1)).map (fun r => (r.1, i :: r.2))
        else some (text, [])) :
    ∀ (rest pre : List Nat) (m : Nat), (∀ b ∈ pre, b ≠ 0) → strlen rest = some m →
      ∃ ws, tr (pre ++ rest) pre.length = some (pre ++ shift_run f rest, ws) ∧
        ∀ i ∈ ws, pre.length ≤ i ∧ i < pre.length + m := by
  intro rest
  induction rest with
  | nil => intro pre m _ h; simp [strlen] at h
  | cons b bs ih =>
    intro pre m hpre hrest
    by_cases hb : b = 0
    · subst hb
      refine ⟨[], ?_, by simp⟩
      rw [htr, strlen_append pre _ hpre]
      simp [strlen, shift_run]
    · cases hbs : strlen bs with
      | none => simp [strlen, hb, hbs] at hrest
      | some m' =>
        have hm : m = m' + 1 := by
          simp [strlen, hb, hbs] at hrest; omega
        have hget : (pre ++ b :: bs).getD pre.length 0 = b := by
          rw [List.getD_eq_getElem?_getD, List.getElem?_append_right (le_refl _)]
          simp
        have hset : ∀ c, (pre ++ b :: bs).set pre.length c = pre ++ c :: bs := by
          intro c; simp [List.set_append]
        rw [htr, strlen_append pre _ hpre]
        simp only [strlen, hb, if_false, hbs, Option.map_some', hget, hset]
        rw [if_pos (by omega)]
        by_cases hf : f b = 0
        · refine ⟨[pre.length], ?_, by simp; omega⟩
          rw [hf, htr, strlen_append pre _ hpre]
          simp [strlen, shift_run, hb, hf]
        · have hpre2 : ∀ c ∈ pre ++ [f b], c ≠ 0 := by
            intro c hc
            rcases List.mem_append.mp hc with h | h
            · exact hpre c h
            · simp at h; subst h; exact hf
          obtain ⟨ws, hws, hbound⟩ := ih (pre ++ [f b]) m' hpre2 hbs
          simp only [List.append_assoc, List.singleton_append, List.length_append,
            List.length_singleton] at hws hbound
          refine ⟨pre.length :: ws, ?_, ?_⟩
          · rw [hws]
            simp [shift_run, hb, hf]
          · intro i hi
            rcases List.mem_cons.mp hi with h | h
            · omega
            · have := hbound i h
              omega

theorem length_shift_run (f : Nat → Nat) : ∀ text : List Nat,
    (shift_run f text).length = text.length
  | [] => by simp [shift_run]
  | b :: bs => by
    by_cases hb : b = 0
    · simp [shift_run, hb]
    · by_cases hf : f b = 0
      · simp [shift_run, hb, hf]
      · simp [shift_run, hb, hf, length_shift_run f bs]

theorem drop_shift_run (f : Nat → Nat) : ∀ (text : List Nat) (n : Nat), strlen text = some n →
    (shift_run f text).drop n = text.drop n
  | [], n, h => by simp [strlen] at h
  | b :: bs, n, h => by
    by_cases hb : b = 0
    · simp [shift_run, hb]
    · cases hbs : strlen bs with
      | none => simp [strlen, hb, hbs] at h
      | some m =>
        have hn : n = m + 1 := by
          simp [strlen, hb, hbs] at h; omega
        subst hn
        by_cases hf : f b = 0
        · simp [shift_run, hb, hf]
        · simp [shift_run, hb, hf, drop_shift_run f bs m hbs]

theorem strlen_shift_run_le (f : Nat → Nat) : ∀ (text : List Nat) (n : Nat),
    strlen text = some n → ∃ m, strlen (shift_run f text) = some m ∧ m ≤ n
  | [], n, h => by simp [strlen] at h
  | b :: bs, n, h => by
    by_cases hb : b = 0
    · refine ⟨0, by simp [shift_run, hb, strlen], by omega⟩
    · cases hbs : strlen bs with
      | none => simp [strlen, hb, hbs] at h
      | some m =>
        have hn : n = m + 1 := by
          simp [strlen, hb, hbs] at h; omega
        subst hn
        by_cases hf : f b = 0
        · refine ⟨0, by simp [shift_run, hb, hf, strlen], by omega⟩
        · obtain ⟨m2, hm2, hle⟩ := strlen_shift_run_le f bs m hbs
          exact ⟨m2 + 1, by simp [shift_run, hb, hf, strlen, hm2], by omega⟩

/-- C19: for every NUL-terminated buffer with content length `n` and every key, the loop of
`encrypt_file` ends (with defined behaviour), every store it makes is at an index strictly
below `n`, the buffer keeps its size and its bytes from index `n` on (the terminator
included), and the content length afterwards is at most `n`; likewise the loop of
`decrypt_file`. -/
theorem loops_in_bounds (text : List Nat) (key : Int) (n : Nat) (hn : strlen text = some n) :
    (∃ t ws m, encrypt_trace key text 0 = some (t, ws) ∧ encrypt_file text key = some t ∧
      (∀ i ∈ ws, i < n) ∧ t.length = text.length ∧ t.drop n = text.drop n ∧
      strlen t = some m ∧ m ≤ n) ∧
    (∃ t ws m, decrypt_trace key text 0 = some (t, ws) ∧ decrypt_file text key = some t ∧
      (∀ i ∈ ws, i < n) ∧ t.length = text.length ∧ t.drop n = text.drop n ∧
      strlen t = some m ∧ m ≤ n) := by
  have hne : strlen text ≠ none := by simp [hn]
  constructor
  · obtain ⟨ws, hws, hb⟩ := trace_spec (fun b => char_add b key) (encrypt_trace key)
      (encrypt_trace_eq key) text [] n (by simp) hn
    obtain ⟨m, hm, hle⟩ := strlen_shift_run_le (fun b => char_add b key) text n hn
    exact ⟨_, ws, m, by simpa using hws, encrypt_file_eq text key hne,
      fun i hi => by have := hb i hi; simp at this; omega,
      length_shift_run _ text, drop_shift_run _ text n hn, hm, hle⟩
  · obtain ⟨ws, hws, hb⟩ := trace_spec (fun b => char_sub b key) (decrypt_trace key)
      (decrypt_trace_eq key) text [] n (by simp) hn
    obtain ⟨m, hm, hle⟩ := strlen_shift_run_le (fun b => char_sub b key) text n hn
    exact ⟨_, ws, m, by simpa using hws, decrypt_file_eq text key hne,
      fun i hi => by have := hb i hi; simp at this; omega,
      length_shift_run _ text, drop_shift_run _ text n hn, hm, hle⟩

/-- The loops over `0x41 0xFF 0x42` with key 1 store below index 3 and keep the terminator. -/
theorem loops_in_bounds_witness :
    (∃ t ws m, encrypt_trace 1 [65, 255, 66, 0] 0 = some (t, ws) ∧
      encrypt_file [65, 255, 66, 0] 1 = some t ∧
      (∀ i ∈ ws, i < 3) ∧ t.length = [65, 255, 66, 0].length ∧
      t.drop 3 = [65, 255, 66, 0].drop 3 ∧ strlen t = some m ∧ m ≤ 3) ∧
    (∃ t ws m, decrypt_trace 1 [65, 255, 66, 0] 0 = some (t, ws) ∧
      decrypt_file [65, 255, 66, 0] 1 = some t ∧
      (∀ i ∈ ws, i < 3) ∧ t.length = [65, 255, 66, 0].length ∧
      t.drop 3 = [65, 255, 66, 0].drop 3 ∧ strlen t = some m ∧ m ≤ 3) :=
  loops_in_bounds [65, 255, 66, 0] 1 3 (by decide)

/-! ## The end-to-end scenario -/

/-- With zero-filled fresh memory the end-to-end scenario holds: encrypting the file "Hi" with
key 3 writes "Kl", and decrypting that file with key 3 writes "Hi". -/
theorem end_to_end_zero_filled :
    main ["caesar", "--encrypt", "3", "in", "out"] world_hi =
      .exited 0 { world_hi with
        stdout := "file successfully encrypted\n"
        fopens := [("in", "r"), ("out", "w")]
        files := fun p => if p = "out" then some [75, 108] else world_hi.files p } ∧
    main ["caesar", "--decrypt", "3", "out", "back"]
        { world_hi with
          files := fun p => if p = "out" then some [75, 108] else world_hi.files p } =
      .exited 0 { world_hi with
        stdout := "file successfully decrypted\n"
        fopens := [("out", "r"), ("back", "w")]
        files := fun p => if p = "back" then some [72, 105] else
          if p = "out" then some [75, 108] else world_hi.files p } := by
  have henc : encrypt_file ([72, 105] ++ List.drop [72, 105].length [0, 0, 0]) 3
      = some [75, 108, 0] := by
    rw [encrypt_file_eq _ _ (by decide)]; decide
  have hdec : decrypt_file ([75, 108] ++ List.drop [75, 108].length [0, 0, 0]) 3
      = some [72, 105, 0] := by
    rw [decrypt_file_eq _ _ (by decide)]; decide
  constructor
  · exact main_encrypt_of "caesar" "--encrypt" "3" "in" "out" world_hi 3 "in" "out" [72, 105]
      [0, 0, 0] [75, 108, 0] 2 (by decide) (by decide) (by decide) (by decide) (by decide)
      (by decide) (by decide) henc (by decide)
  · exact main_decrypt_of "caesar" "--decrypt" "3" "out" "back" _ 3 "out" "back" [75, 108]
      [0, 0, 0] [72, 105, 0] 2 (by decide) (by decide) (by decide) (by decide) (by decide)
      (by decide) (by decide) hdec (by decide)

/-- C16, on the code: when the block `malloc` hands out holds a non-zero byte after the two
bytes read from the file, the buffer has no terminator and the run of the scenario has
undefined behaviour instead of writing "Kl". -/
theorem end_to_end_unterminated :
    (import_file world_dirty "in").value = some [72, 105, 1] ∧
    strlen [72, 105, 1] = none ∧
    main ["caesar", "--encrypt", "3", "in", "out"] world_dirty = .undefined :=
  ⟨by decide, by decide,
   main_unterminated "caesar" "--encrypt" "3" "in" "out" world_dirty 3 "in" "out" [72, 105]
     [1, 1, 1] (by decide) (by decide) (by decide) (by decide) (by decide) (by decide)
     (by decide)⟩

/-! ## The key argument -/

theorem isspace_of_isdigit (c : Char) (h : isdigit c = true) : isspace c = false := by
  simp only [isdigit, Bool.and_eq_true, decide_eq_true_eq] at h
  simp only [isspace, Bool.or_eq_false_iff, Bool.and_eq_false_iff, decide_eq_false_iff_not]
  omega

theorem not_sign_of_isdigit (c : Char) (h : isdigit c = true) : ¬ (c = '-' ∨ c = '+') := by
  simp only [isdigit, Bool.and_eq_true, decide_eq_true_eq] at h
  rintro (rfl | rfl)
  · exact absurd h.1 (by decide)
  · exact absurd h.1 (by decide)

theorem dropWhile_isspace_append (ws l : List Char) (hws : ∀ c ∈ ws, isspace c = true) :
    (ws ++ l).dropWhile isspace = l.dropWhile isspace := by
  induction ws with
  | nil => rfl
  | cons a as ih =>
    have ha := hws a (by simp)
    simp only [List.cons_append, List.dropWhile_cons, ha, if_true]
    exact ih (fun c hc => hws c (by simp [hc]))

theorem takeWhile_isdigit_append (ds rest : List Char) (hds : ∀ c ∈ ds, isdigit c = true)
    (hrest : ∀ c, rest.head? = some c → isdigit c = false) :
    (ds ++ rest).takeWhile isdigit = ds := by
  induction ds with
  | nil =>
    cases rest with
    | nil => rfl
    | cons c cs => simp [List.takeWhile_cons, hrest c rfl]
  | cons a as ih =>
    have ha := hds a (by simp)
    simp only [List.cons_append, List.takeWhile_cons, ha, if_true]
    rw [ih (fun c hc => hds c (by simp [hc]))]

/-- What `sscanf_d` reads from white space, digits and a tail that starts with no digit. -/
theorem sscanf_d_digits (ws ds rest : List Char) (hws : ∀ c ∈ ws, isspace c = true)
    (hne : ds ≠ []) (hds : ∀ c ∈ ds, isdigit c = true)
    (hrest : ∀ c, rest.head? = some c → isdigit c = false) :
    sscanf_d (String.mk (ws ++ ds ++ rest)) = some (wrap_int (clamp_long (decimal_value ds))) := by
  cases ds with
  | nil => exact absurd rfl hne
  | cons d ds' =>
    have hd := hds d (by simp)
    have hsp := isspace_of_isdigit d hd
    have hsign := not_sign_of_isdigit d hd
    have hminus : d ≠ '-' := fun h => hsign (Or.inl h)
    have htw := takeWhile_isdigit_append (d :: ds') rest hds hrest
    have hdrop : (String.mk (ws ++ (d :: ds') ++ rest)).toList.dropWhile isspace
        = d :: (ds' ++ rest) := by
      simp [String.toList, dropWhile_isspace_append ws _ hws, List.dropWhile_cons, hsp]
    simp only [List.cons_append] at htw
    unfold sscanf_d
    rw [hdrop]
    simp only [if_neg hsign, htw, if_neg hminus]
    rfl

/-- What `sscanf_d` reads when a sign stands before the digits. -/
theorem sscanf_d_signed (ws ds rest : List Char) (hws : ∀ c ∈ ws, isspace c = true)
    (hne : ds ≠ []) (hds : ∀ c ∈ ds, isdigit c = true)
    (hrest : ∀ c, rest.head? = some c → isdigit c = false) :
    sscanf_d (String.mk (ws ++ '-' :: ds ++ rest))
      = some (wrap_int (clamp_long (-(decimal_value ds : Int)))) ∧
    sscanf_d (String.mk (ws ++ '+' :: ds ++ rest))
      = some (wrap_int (clamp_long (decimal_value ds))) := by
  have htw := takeWhile_isdigit_append ds rest hds hrest
  have hm : isspace '-' = false := by decide
  have hp : isspace '+' = false := by decide
  have hpm : ('+' : Char) ≠ '-' := by decide
  have hdm : (String.mk (ws ++ '-' :: ds ++ rest)).toList.dropWhile isspace
      = '-' :: (ds ++ rest) := by
    simp [String.toList, dropWhile_isspace_append ws _ hws, List.dropWhile_cons, hm]
  have hdp : (String.mk (ws ++ '+' :: ds ++ rest)).toList.dropWhile isspace
      = '+' :: (ds ++ rest) := by
    simp [String.toList, dropWhile_isspace_append ws _ hws, List.dropWhile_cons, hp]
  constructor
  · unfold sscanf_d
    rw [hdm]
    simp only [true_or, if_true, htw, if_neg hne]
    rfl
  · unfold sscanf_d
    rw [hdp]
    simp only [or_true, if_true, htw, if_neg hne, if_neg hpm]
    rfl

theorem wrap_int_of_range (v : Int) (h1 : -2147483648 ≤ v) (h2 : v < 2147483648) :
    wrap_int v = v := by
  unfold wrap_int; omega

theorem wrap_clamp_of_range (v : Int) (h1 : -2147483648 ≤ v) (h2 : v < 2147483648) :
    wrap_int (clamp_long v) = v := by
  unfold wrap_int clamp_long
  split
  · omega
  · split <;> omega

/-- Two texts that differ within their first `n` characters stay different after any text
printed before them. -/
theorem append_ne_of_take_ne (s a b : String) (n : Nat) (h : a.data.take n ≠ b.data.take n) :
    s ++ a ≠ s ++ b := by
  intro e
  have e2 := congrArg String.data e
  simp only [String.data_append, List.append_cancel_left_eq] at e2
  exact h (by rw [e2])

/-- A message that starts with a text other than "caesar-cipher: error: i" is not the
"invalid key" message. -/
theorem ne_invalid_key (s lit x : String) (hlen : 23 ≤ lit.data.length)
    (hd : lit.data.take 23 ≠ "caesar-cipher: error: invalid key".data.take 23) :
    s ++ (lit ++ x) ≠ s ++ "caesar-cipher: error: invalid key" := by
  apply append_ne_of_take_ne s _ _ 23
  rw [String.data_append, List.take_append_of_le_length hlen]
  exact hd

theorem import_file_cases (w : World) (i : String) :
    (∃ w', import_file w i = .exited 1 w' ∧ w'.fopens = w.fopens ++ [(i, "r")]) ∨
    (∃ text, import_file w i = .returned text { w with fopens := w.fopens ++ [(i, "r")] }) := by
  cases hf : w.files i with
  | none =>
    exact Or.inl ⟨printf (print_error_header { w with fopens := w.fopens ++ [(i, "r")] })
      ("the file " ++ i ++ " does not exist\n"), by simp [import_file, hf, EXIT_FAILURE], rfl⟩
  | some content =>
    cases hm : w.malloc (content.length + 1) with
    | none =>
      exact Or.inl ⟨printf (print_error_header { w with fopens := w.fopens ++ [(i, "r")] })
        "memory allocation failure", by simp [import_file, hf, hm, EXIT_FAILURE], rfl⟩
    | some block =>
      exact Or.inr ⟨content ++ block.drop content.length, by simp [import_file, hf, hm]⟩

theorem export_file_cases (w : World) (o : String) (text : List Nat) :
    export_file w o text = .undefined ∨
    (∃ w', export_file w o text = .exited 1 w' ∧ w'.fopens = w.fopens ++ [(o, "w")]) ∨
    (∃ w', export_file w o text = .returned () w' ∧ w'.fopens = w.fopens ++ [(o, "w")]) := by
  by_cases hw : w.writable o = true
  · cases hs : strlen text with
    | none => exact Or.inl (by simp [export_file, hw, hs])
    | some n =>
      exact Or.inr (Or.inr ⟨{ w with
        fopens := w.fopens ++ [(o, "w")]
        files := fun p => if p = o then some (text.take n) else w.files p },
        by simp [export_file, hw, hs], rfl⟩)
  · exact Or.inr (Or.inl ⟨printf (print_error_header { w with fopens := w.fopens ++ [(o, "w")] })
      ("impossible to write in file " ++ o ++ "\n"), by simp [export_file, hw, EXIT_FAILURE], rfl⟩)

/-- After the input file is opened, no outcome of saving the result is an exit with status 1
that leaves the list of opened files as it was at the start. -/
theorem save_ne_no_open (w wi w2 : World) (o msg : String) (text : List Nat)
    (hwi : ∀ x, wi.fopens ++ [x] ≠ w.fopens) (hw2 : w2.fopens = w.fopens) :
    (match export_file wi o text with
      | .undefined => (Run.undefined : Run Unit)
      | .exited status w => .exited status w
      | .returned _ w => .exited 0 { w with stdout := w.stdout ++ msg }) ≠ .exited 1 w2 := by
  rcases export_file_cases wi o text with he | ⟨w', he, hf⟩ | ⟨w', he, hf⟩
  · rw [he]; simp
  · rw [he]
    simp only [ne_eq, Run.exited.injEq, true_and]
    intro e
    rw [e, hw2] at hf
    exact hwi _ hf.symm
  · rw [he]; simp

theorem main_ne_invalid_key (prog mode key inp out : String) (w : World) (k : Int)
    (hk : sscanf_d key = some k) :
    main [prog, mode, key, inp, out] w ≠
      .exited 1 { w with stdout := w.stdout ++ "caesar-cipher: error: invalid key" } := by
  have hstr : ∀ (lit x : String), 23 ≤ lit.data.length →
      lit.data.take 23 ≠ "caesar-cipher: error: invalid key".data.take 23 →
      (Run.exited 1 { w with stdout := w.stdout ++ (lit ++ x) } : Run Unit) ≠
        .exited 1 { w with stdout := w.stdout ++ "caesar-cipher: error: invalid key" } := by
    intro lit x hlen hd h
    have hso := congrArg Run.stdout h
    simp only [Run.stdout, Run.world, Option.map_some', Option.some.injEq] at hso
    exact ne_invalid_key w.stdout lit x hlen hd hso
  have hgrow : ∀ i : String, (w.fopens ++ [(i, "r")] ≠ w.fopens) ∧
      ∀ x, (w.fopens ++ [(i, "r")]) ++ [x] ≠ w.fopens := by
    intro i
    constructor
    · intro e
      have := congrArg List.length e
      simp at this
    · intro x e
      have := congrArg List.length e
      simp at this
  rw [main_five]
  simp only [hk]
  cases hi : sscanf_s 19 inp with
  | none =>
    simp only [String.append_assoc]
    exact hstr _ _ (by decide) (by decide)
  | some i =>
    cases ho : sscanf_s 19 out with
    | none =>
      simp only [String.append_assoc]
      exact hstr _ _ (by decide) (by decide)
    | some o =>
      simp only
      split
      · simp only [String.append_assoc]
        exact hstr _ _ (by decide) (by decide)
      · rcases import_file_cases w i with ⟨w', hw', hf⟩ | ⟨text, ht⟩
        · rw [hw']
          simp only [ne_eq, Run.exited.injEq, true_and]
          intro e
          rw [e] at hf
          exact (hgrow i).1 hf.symm
        · rw [ht]
          simp only
          split
          · cases encrypt_file text k with
            | none => simp
            | some t =>
              exact save_ne_no_open w _ _ o _ t (hgrow i).2 rfl
          · cases decrypt_file text k with
            | none => simp
            | some t =>
              exact save_ne_no_open w _ _ o _ t (hgrow i).2 rfl

/-- C11, as stated, fails: the key argument `3x` is not an integer, yet the program reports no
"invalid key" error; it reads the leading `3` and encrypts with it. -/
theorem invalid_key_counterexample :
    sscanf_d "3x" = some 3 ∧
    (main ["caesar", "-e", "3x", "in", "out"] world_hi).status = some 0 ∧
    (main ["caesar", "-e", "3x", "in", "out"] world_hi).stdout
      = some "file successfully encrypted\n" ∧
    (main ["caesar", "-e", "3x", "in", "out"] world_hi).file "out" = some (some [75, 108]) := by
  have henc : encrypt_file ([72, 105] ++ List.drop [72, 105].length [0, 0, 0]) 3
      = some [75, 108, 0] := by
    rw [encrypt_file_eq _ _ (by decide)]; decide
  have h := main_encrypt_of "caesar" "-e" "3x" "in" "out" world_hi 3
    "in" "out" [72, 105] [0, 0, 0] [75, 108, 0] 2 (by decide) (by decide)
    (by decide) (by decide) (by decide) (by decide) (by decide) henc (by decide)
  rw [h]
  refine ⟨by decide, rfl, rfl, ?_⟩
  simp [Run.file, Run.world]

theorem sscanf_d_eq_none_iff (key : String) :
    sscanf_d key = none ↔ starts_with_number key.toList = false := by
  unfold sscanf_d starts_with_number
  cases key.toList.dropWhile isspace with
  | nil => simp
  | cons c cs =>
    by_cases hs : c = '-' ∨ c = '+'
    · cases cs with
      | nil => simp [hs]
      | cons d ds =>
        cases hd : isdigit d <;> simp [hs, List.takeWhile_cons, hd]
    · cases hc : isdigit c <;> simp [hs, List.takeWhile_cons, hc]

/-- What `sscanf_d` stores for an argument made of white space, an optional sign, digits that
write a number fitting an `int`, and a tail that starts with no digit. -/
theorem sscanf_d_of_shape (key : String) (ws sgn ds rest : List Char) (v : Int)
    (hkey : key.toList = ws ++ sgn ++ ds ++ rest) (hws : ∀ c ∈ ws, isspace c = true)
    (hsgn : ((sgn = [] ∨ sgn = ['+']) ∧ v = decimal_value ds) ∨
      (sgn = ['-'] ∧ v = -(decimal_value ds : Int)))
    (hne : ds ≠ []) (hds : ∀ c ∈ ds, isdigit c = true)
    (hrest : ∀ c, rest.head? = some c → isdigit c = false)
    (h1 : -2147483648 ≤ v) (h2 : v < 2147483648) :
    sscanf_d key = some v := by
  have hk : key = String.mk (ws ++ sgn ++ ds ++ rest) := by
    rw [← hkey]; rfl
  rw [hk]
  rcases hsgn with ⟨hs | hs, hv⟩ | ⟨hs, hv⟩
  · subst hs
    rw [List.append_nil, sscanf_d_digits ws ds rest hws hne hds hrest, ← hv,
      wrap_clamp_of_range v h1 h2]
  · subst hs
    have := (sscanf_d_signed ws ds rest hws hne hds hrest).2
    simp only [List.append_assoc, List.singleton_append, List.cons_append,
      List.nil_append] at this ⊢
    rw [this, ← hv, wrap_clamp_of_range v h1 h2]
  · subst hs
    have := (sscanf_d_signed ws ds rest hws hne hds hrest).1
    simp only [List.append_assoc, List.singleton_append, List.cons_append,
      List.nil_append] at this ⊢
    rw [this, ← hv, wrap_clamp_of_range v h1 h2]

/-- C11 (amended): for every invocation with exactly four extra arguments, the program prints
"caesar-cipher: error: invalid key" and exits with status 1 (no file opened) exactly when the
key argument does not start, after optional white space and one optional sign, with a decimal
digit. When it does, and the number written by its leading digits (negated after a minus sign)
fits a 32-bit `int`, the key the transform uses is that number, whatever follows the digits:
a run that passes the other checks applies `encrypt_file` or `decrypt_file` with it. -/
theorem invalid_key (prog mode key inp out : String) (w : World) :
    (main [prog, mode, key, inp, out] w =
        .exited 1 { w with stdout := w.stdout ++ "caesar-cipher: error: invalid key" } ↔
      starts_with_number key.toList = false) ∧
    (∀ (ws sgn ds rest : List Char) (v : Int) (i o : String) (content block : List Nat) (n : Nat),
      key.toList = ws ++ sgn ++ ds ++ rest → (∀ c ∈ ws, isspace c = true) →
      (((sgn = [] ∨ sgn = ['+']) ∧ v = decimal_value ds) ∨
        (sgn = ['-'] ∧ v = -(decimal_value ds : Int))) →
      ds ≠ [] → (∀ c ∈ ds, isdigit c = true) →
      (∀ c, rest.head? = some c → isdigit c = false) →
      -2147483648 ≤ v → v < 2147483648 →
      sscanf_s 19 inp = some i → sscanf_s 19 out = some o →
      w.files i = some content → w.malloc (content.length + 1) = some block →
      strlen (content ++ block.drop content.length) = some n → w.writable o = true →
      ((mode = "--encrypt" ∨ mode = "-e") →
        ∃ text m, encrypt_file (content ++ block.drop content.length) v = some text ∧
          strlen text = some m ∧
          main [prog, mode, key, inp, out] w =
            .exited 0 { w with
              stdout := w.stdout ++ "file successfully encrypted\n"
              fopens := w.fopens ++ [(i, "r"), (o, "w")]
              files := fun p => if p = o then some (text.take m) else w.files p }) ∧
      ((mode = "--decrypt" ∨ mode = "-d") →
        ∃ text m, decrypt_file (content ++ block.drop content.length) v = some text ∧
          strlen text = some m ∧
          main [prog, mode, key, inp, out] w =
            .exited 0 { w with
              stdout := w.stdout ++ "file successfully decrypted\n"
              fopens := w.fopens ++ [(i, "r"), (o, "w")]
              files := fun p => if p = o then some (text.take m) else w.files p })) := by
  constructor
  · rw [← sscanf_d_eq_none_iff]
    constructor
    · intro h
      cases hk : sscanf_d key with
      | none => rfl
      | some k => exact absurd h (main_ne_invalid_key prog mode key inp out w k hk)
    · intro hk
      rw [main_five]
      simp [hk]
  · intro ws sgn ds rest v i o content block n hshape hws hsgn hne hds hrest h1 h2 hin hout
      hfile hmalloc hterm hwr
    have hkey := sscanf_d_of_shape key ws sgn ds rest v hshape hws hsgn hne hds hrest h1 h2
    have hnn : strlen (content ++ block.drop content.length) ≠ none := by simp [hterm]
    constructor
    · intro hmode
      have henc := encrypt_file_eq _ v hnn
      obtain ⟨m, hm⟩ := Option.ne_none_iff_exists'.mp
        (strlen_shift_run (fun b => char_add b v) _ hnn)
      exact ⟨_, m, henc, hm,
        main_encrypt_of prog mode key inp out w v i o content block _ m hmode hkey hin hout
          hfile hmalloc hwr henc hm⟩
    · intro hmode
      have hdec := decrypt_file_eq _ v hnn
      obtain ⟨m, hm⟩ := Option.ne_none_iff_exists'.mp
        (strlen_shift_run (fun b => char_sub b v) _ hnn)
      exact ⟨_, m, hdec, hm,
        main_decrypt_of prog mode key inp out w v i o content block _ m hmode hkey hin hout
          hfile hmalloc hwr hdec hm⟩

/-- The keys `abc` and `-` are reported as invalid; the key ` -3x` decrypts with -3. -/
theorem invalid_key_witness :
    main ["caesar", "-e", "abc", "in", "out"] world_hi =
      .exited 1 { world_hi with
        stdout := world_hi.stdout ++ "caesar-cipher: error: invalid key" } ∧
    main ["caesar", "-e", "-", "in", "out"] world_hi =
      .exited 1 { world_hi with
        stdout := world_hi.stdout ++ "caesar-cipher: error: invalid key" } ∧
    (∃ text m, decrypt_file ([72, 105] ++ List.drop [72, 105].length [0, 0, 0]) (-3) = some text ∧
      strlen text = some m ∧
      main ["caesar", "-d", " -3x", "in", "out"] world_hi =
        .exited 0 { world_hi with
          stdout := world_hi.stdout ++ "file successfully decrypted\n"
          fopens := world_hi.fopens ++ [("in", "r"), ("out", "w")]
          files := fun p => if p = "out" then some (text.take m) else world_hi.files p }) :=
  ⟨(invalid_key "caesar" "-e" "abc" "in" "out" world_hi).1.mpr (by decide),
   (invalid_key "caesar" "-e" "-" "in" "out" world_hi).1.mpr (by decide),
   ((invalid_key "caesar" "-d" " -3x" "in" "out" world_hi).2 [' '] ['-'] ['3'] ['x'] (-3)
     "in" "out" [72, 105] [0, 0, 0] 2 (by decide) (by decide) (Or.inr ⟨rfl, by decide⟩)
     (by decide) (by decide) (by decide) (by decide) (by decide) (by decide) (by decide)
     (by decide) (by decide) (by decide) (by decide)).2 (by decide)⟩

/-! ## The file name arguments -/

theorem takeWhile_append_stop (q : Char → Bool) (l rest : List Char)
    (hl : ∀ c ∈ l, q c = true) (hrest : ∀ c, rest.head? = some c → q c = false) :
    (l ++ rest).takeWhile q = l := by
  induction l with
  | nil =>
    cases rest with
    | nil => rfl
    | cons c cs => simp [List.takeWhile_cons, hrest c rfl]
  | cons a as ih =>
    have ha := hl a (by simp)
    simp only [List.cons_append, List.takeWhile_cons, ha, if_true]
    rw [ih (fun c hc => hl c (by simp [hc]))]

/-- What `sscanf_s` stores for a path made of white space, a word and a tail that is empty or
starts with white space: the word, cut to the width. -/
theorem sscanf_s_word (width : Nat) (p : String) (ws tok rest : List Char)
    (hp : p.toList = ws ++ tok ++ rest) (hws : ∀ c ∈ ws, isspace c = true)
    (hne : tok ≠ []) (htok : ∀ c ∈ tok, isspace c = false)
    (hrest : ∀ c, rest.head? = some c → isspace c = true) :
    sscanf_s width p = some (String.mk (tok.take width)) := by
  cases tok with
  | nil => exact absurd rfl hne
  | cons t ts =>
    have ht := htok t (by simp)
    have htw : (ts ++ rest).takeWhile (fun d => !isspace d) = ts :=
      takeWhile_append_stop (fun d => !isspace d) ts rest
        (fun c hc => by simp [htok c (by simp [hc])])
        (fun c hc => by simp [hrest c hc])
    unfold sscanf_s
    rw [hp, List.append_assoc, dropWhile_isspace_append ws _ hws]
    simp only [List.cons_append, List.dropWhile_cons, ht, Bool.false_eq_true, if_false, htw]

/-- Two messages that differ within the first 23 characters of their fixed parts stay
different after any text printed before them. -/
theorem ne_of_fixed_parts (s lit1 x lit2 y : String) (h1 : 23 ≤ lit1.data.length)
    (h2 : 23 ≤ lit2.data.length) (hd : lit1.data.take 23 ≠ lit2.data.take 23) :
    s ++ (lit1 ++ x) ≠ s ++ (lit2 ++ y) := by
  apply append_ne_of_take_ne s _ _ 23
  rw [String.data_append, String.data_append, List.take_append_of_le_length h1,
    List.take_append_of_le_length h2]
  exact hd

/-- Once the key and both paths pass their checks, no outcome of the run is the "filename
invalid" error. -/
theorem main_ne_filename_invalid (prog mode key inp out : String) (w : World) (k : Int)
    (i o p : String) (hk : sscanf_d key = some k) (hi : sscanf_s 19 inp = some i)
    (ho : sscanf_s 19 out = some o) :
    main [prog, mode, key, inp, out] w ≠
      .exited 1 { w with stdout := w.stdout ++
        ("caesar-cipher: error: filename " ++ p ++ " invalid") } := by
  have hgrow : ∀ x : String × String, (w.fopens ++ [(i, "r")] ≠ w.fopens) ∧
      ∀ y, (w.fopens ++ [x]) ++ [y] ≠ w.fopens := by
    intro x
    constructor
    · intro e
      have := congrArg List.length e
      simp at this
    · intro y e
      have := congrArg List.length e
      simp at this
  rw [main_five]
  simp only [hk, hi, ho]
  split
  · intro h
    have hso := congrArg Run.stdout h
    simp only [Run.stdout, Run.world, Option.map_some', Option.some.injEq,
      String.append_assoc] at hso
    exact ne_of_fixed_parts w.stdout _ _ _ _ (by decide) (by decide) (by decide) hso
  · rcases import_file_cases w i with ⟨w', hw', hf⟩ | ⟨text, ht⟩
    · rw [hw']
      simp only [ne_eq, Run.exited.injEq, true_and]
      intro e
      rw [e] at hf
      exact (hgrow (i, "r")).1 hf.symm
    · rw [ht]
      simp only
      split
      · cases encrypt_file text k with
        | none => simp
        | some t => exact save_ne_no_open w _ _ o _ t (hgrow (i, "r")).2 rfl
      · cases decrypt_file text k with
        | none => simp
        | some t => exact save_ne_no_open w _ _ o _ t (hgrow (i, "r")).2 rfl

/-- C10, as stated, fails: an input path of 31 characters is not rejected; the program cuts it
to its first 19 characters and tries to open that file. -/
theorem invalid_filename_counterexample :
    (main ["caesar", "-e", "3", "this-input-name-is-too-long.txt", "out"] world_hi).stdout
      = some "caesar-cipher: error: the file this-input-name-is- does not exist\n" ∧
    (main ["caesar", "-e", "3", "this-input-name-is-too-long.txt", "out"] world_hi).fopens
      = some [("this-input-name-is-", "r")] := by
  decide

/-- C10 (amended): for every invocation with exactly four extra arguments whose key is valid,
the program prints "caesar-cipher: error: filename " followed by the path and " invalid" and
exits with status 1 without opening any file when the input path, or else the output path, is
empty or holds only white space, and in no other case. Any other path is accepted whatever its
length, and the file name used is its first word cut to 19 characters: that is the input file
the program opens, and the output file it opens once the input is loaded. -/
theorem invalid_filename (prog mode key inp out : String) (w : World) (k : Int)
    (hkey : sscanf_d key = some k) :
    ((∀ c ∈ inp.toList, isspace c = true) →
      main [prog, mode, key, inp, out] w =
        .exited 1 { w with stdout := w.stdout ++
          ("caesar-cipher: error: filename " ++ inp ++ " invalid") }) ∧
    ((∃ c ∈ inp.toList, isspace c = false) → (∀ c ∈ out.toList, isspace c = true) →
      main [prog, mode, key, inp, out] w =
        .exited 1 { w with stdout := w.stdout ++
          ("caesar-cipher: error: filename " ++ out ++ " invalid") }) ∧
    ((∃ c ∈ inp.toList, isspace c = false) → (∃ c ∈ out.toList, isspace c = false) →
      ∀ p : String, main [prog, mode, key, inp, out] w ≠
        .exited 1 { w with stdout := w.stdout ++
          ("caesar-cipher: error: filename " ++ p ++ " invalid") }) ∧
    (∀ ws tok rest ws2 tok2 rest2 : List Char,
      inp.toList = ws ++ tok ++ rest → (∀ c ∈ ws, isspace c = true) → tok ≠ [] →
      (∀ c ∈ tok, isspace c = false) → (∀ c, rest.head? = some c → isspace c = true) →
      out.toList = ws2 ++ tok2 ++ rest2 → (∀ c ∈ ws2, isspace c = true) → tok2 ≠ [] →
      (∀ c ∈ tok2, isspace c = false) → (∀ c, rest2.head? = some c → isspace c = true) →
      (mode = "--encrypt" ∨ mode = "-e" ∨ mode = "--decrypt" ∨ mode = "-d") →
      (w.files (String.mk (tok.take 19)) = none →
        main [prog, mode, key, inp, out] w =
          .exited 1 { w with
            stdout := w.stdout ++ ("caesar-cipher: error: the file " ++
              String.mk (tok.take 19) ++ " does not exist\n")
            fopens := w.fopens ++ [(String.mk (tok.take 19), "r")] }) ∧
      (∀ (content block : List Nat) (n : Nat),
        w.files (String.mk (tok.take 19)) = some content →
        w.malloc (content.length + 1) = some block →
        strlen (content ++ block.drop content.length) = some n →
        w.writable (String.mk (tok2.take 19)) = true →
        (main [prog, mode, key, inp, out] w).status = some 0 ∧
        (main [prog, mode, key, inp, out] w).fopens =
          some (w.fopens ++ [(String.mk (tok.take 19), "r"), (String.mk (tok2.take 19), "w")]))) := by
  refine ⟨?_, ?_, ?_, ?_⟩
  · intro hall
    have hi := (sscanf_s_eq_none_iff 19 inp).mpr hall
    rw [main_five]
    simp [hkey, hi]
  · intro hsome hall
    obtain ⟨i, hi⟩ := sscanf_s_isSome 19 inp hsome
    have ho := (sscanf_s_eq_none_iff 19 out).mpr hall
    rw [main_five]
    simp [hkey, hi, ho]
  · intro hsi hso p
    obtain ⟨i, hi⟩ := sscanf_s_isSome 19 inp hsi
    obtain ⟨o, ho⟩ := sscanf_s_isSome 19 out hso
    exact main_ne_filename_invalid prog mode key inp out w k i o p hkey hi ho
  · intro ws tok rest ws2 tok2 rest2 hinp hws hne htok hrest hout hws2 hne2 htok2 hrest2 hmode
    have hi := sscanf_s_word 19 inp ws tok rest hinp hws hne htok hrest
    have ho := sscanf_s_word 19 out ws2 tok2 rest2 hout hws2 hne2 htok2 hrest2
    constructor
    · intro hfile
      exact main_import_fails prog mode key inp out w k _ _ hmode hkey hi ho hfile
    · intro content block n hfile hmalloc hterm hwr
      have hnn : strlen (content ++ block.drop content.length) ≠ none := by simp [hterm]
      by_cases he : mode = "--encrypt" ∨ mode = "-e"
      · have henc := encrypt_file_eq _ k hnn
        obtain ⟨m, hm⟩ := Option.ne_none_iff_exists'.mp
          (strlen_shift_run (fun b => char_add b k) _ hnn)
        rw [main_encrypt_of prog mode key inp out w k _ _ content block _ m he hkey hi ho
          hfile hmalloc hwr henc hm]
        exact ⟨rfl, rfl⟩
      · have hd : mode = "--decrypt" ∨ mode = "-d" := by
          rcases hmode with h | h | h | h
          · exact absurd (Or.inl h) he
          · exact absurd (Or.inr h) he
          · exact Or.inl h
          · exact Or.inr h
        have hdec := decrypt_file_eq _ k hnn
        obtain ⟨m, hm⟩ := Option.ne_none_iff_exists'.mp
          (strlen_shift_run (fun b => char_sub b k) _ hnn)
        rw [main_decrypt_of prog mode key inp out w k _ _ content block _ m hd hkey hi ho
          hfile hmalloc hwr hdec hm]
        exact ⟨rfl, rfl⟩

/-- A blank input path and an empty output path are reported as invalid; an input path of 31
characters is opened under its first 19 characters, and so is an output path of 32. -/
theorem invalid_filename_witness :
    main ["caesar", "-e", "3", " ", "out"] world_hi =
      .exited 1 { world_hi with stdout := world_hi.stdout ++
        ("caesar-cipher: error: filename " ++ " " ++ " invalid") } ∧
    main ["caesar", "-e", "3", "in", ""] world_hi =
      .exited 1 { world_hi with stdout := world_hi.stdout ++
        ("caesar-cipher: error: filename " ++ "" ++ " invalid") } ∧
    main ["caesar", "-e", "3", "this-input-name-is-too-long.txt", "out"] world_hi =
      .exited 1 { world_hi with
        stdout := world_hi.stdout ++ ("caesar-cipher: error: the file " ++
          String.mk ("this-input-name-is-too-long.txt".toList.take 19) ++ " does not exist\n")
        fopens := world_hi.fopens ++
          [(String.mk ("this-input-name-is-too-long.txt".toList.take 19), "r")] } ∧
    ((main ["caesar", "-e", "3", "in", "a-very-long-output-file-name.txt"] world_hi).status
        = some 0 ∧
      (main ["caesar", "-e", "3", "in", "a-very-long-output-file-name.txt"] world_hi).fopens =
        some (world_hi.fopens ++ [(String.mk ("in".toList.take 19), "r"),
          (String.mk ("a-very-long-output-file-name.txt".toList.take 19), "w")])) :=
  ⟨(invalid_filename "caesar" "-e" "3" " " "out" world_hi 3 (by decide)).1 (by decide),
   (invalid_filename "caesar" "-e" "3" "in" "" world_hi 3 (by decide)).2.1
     ⟨'i', by decide, by decide⟩ (by decide),
   ((invalid_filename "caesar" "-e" "3" "this-input-name-is-too-long.txt" "out" world_hi 3
     (by decide)).2.2.2 [] "this-input-name-is-too-long.txt".toList [] [] "out".toList []
     (by decide) (by decide) (by decide) (by decide) (by decide)
     (by decide) (by decide) (by decide) (by decide) (by decide) (by decide)).1 (by decide),
   ((invalid_filename "caesar" "-e" "3" "in" "a-very-long-output-file-name.txt" world_hi 3
     (by decide)).2.2.2 [] "in".toList [] [] "a-very-long-output-file-name.txt".toList []
     (by decide) (by decide) (by decide) (by decide) (by decide)
     (by decide) (by decide) (by decide) (by decide) (by decide) (by decide)).2
     [72, 105] [0, 0, 0] 2 (by decide) (by decide) (by decide) (by decide)⟩

end Caesar
